import Mathlib

/-!
Verification of the structured evaluation extractor of
`scripts/check_evaluations_parse.py`: the envelope unwrapper `unwrap_raw`,
the whitespace normalizer `normalize_text`, and the rubric extractor
`try_parse` (with its inner `extract` closure).  Text is embedded as
`List Char`; Python's `None`-or-string inputs as `Option (List Char)`.
-/

/-- Text, as Python strings restricted to their character sequence. -/
abbrev Str := List Char

/-- Whitespace test modelling Python's `\s` regex class and the default
character set of `str.strip` (ASCII whitespace, the C0 information
separators, and the Unicode space characters). -/
def pyWS (c : Char) : Bool :=
  c = ' ' || c = '\t' || c = '\n' || c = '\x0b' || c = '\x0c' || c = '\r' ||
  c = '\x1c' || c = '\x1d' || c = '\x1e' || c = '\x1f' || c = '\x85' || c = '\xa0' ||
  c = '\u1680' || c = '\u2000' || c = '\u2001' || c = '\u2002' || c = '\u2003' ||
  c = '\u2004' || c = '\u2005' || c = '\u2006' || c = '\u2007' || c = '\u2008' ||
  c = '\u2009' || c = '\u200a' || c = '\u2028' || c = '\u2029' || c = '\u202f' ||
  c = '\u205f' || c = '\u3000'

/-- Per-character lowercasing modelling Python's `str.lower` on the characters
that can appear here: ASCII letters and the Latin-1 accented capitals
(`À`–`Þ` except `×`) map down by 32; everything else is unchanged. -/
def lowerC (c : Char) : Char :=
  if 'A' ≤ c ∧ c ≤ 'Z' then Char.ofNat (c.toNat + 32)
  else if 'À' ≤ c ∧ c ≤ 'Þ' ∧ c ≠ '×' then Char.ofNat (c.toNat + 32)
  else c

/-- `str.lower` on a whole text. -/
def lowerS (s : Str) : Str := s.map lowerC

/-- `text.replace('\r\n', '\n')`: left-to-right, non-overlapping. -/
def decrlf : Str → Str
  | [] => []
  | [c] => [c]
  | c :: d :: rest =>
    if c = '\r' ∧ d = '\n' then '\n' :: decrlf rest
    else c :: decrlf (d :: rest)

/-- `text.split('\n')`: always yields at least one (possibly empty) line. -/
def splitLines : Str → List Str
  | [] => [[]]
  | c :: rest =>
    if c = '\n' then [] :: splitLines rest
    else
      match splitLines rest with
      | [] => [[c]]
      | l :: ls => (c :: l) :: ls

/-- `'\n'.join(lines)`. -/
def joinNL : List Str → Str
  | [] => []
  | [l] => l
  | l :: ls => l ++ '\n' :: joinNL ls

/-- `' '.join(lines)`. -/
def joinSp : List Str → Str
  | [] => []
  | [l] => l
  | l :: ls => l ++ ' ' :: joinSp ls

/-- `','.join(labels)`. -/
def joinComma : List Str → Str
  | [] => []
  | [l] => l
  | l :: ls => l ++ ',' :: joinComma ls

/-- `re.sub(r'\s+', ' ', line)`: each maximal run of whitespace becomes a
single space.  A whitespace head emits one `' '` which is merged with a
space produced by the rest of the run. -/
def collapseWS : Str → Str
  | [] => []
  | c :: rest =>
    if pyWS c then
      match collapseWS rest with
      | [] => [' ']
      | d :: t => if d = ' ' then ' ' :: t else ' ' :: d :: t
    else c :: collapseWS rest

/-- `s.lstrip()`. -/
def lstrip (s : Str) : Str := s.dropWhile pyWS

/-- `s.rstrip()`. -/
def rstrip (s : Str) : Str := (s.reverse.dropWhile pyWS).reverse

/-- `s.strip()`. -/
def strip (s : Str) : Str := lstrip (rstrip s)

/-- `normalize_text` from the script: CRLF to LF, per-line whitespace
collapse and right-trim, then a whole-text strip. -/
def normalize_text : Option Str → Str
  | none => []
  | some s =>
    strip (joinNL ((splitLines (decrlf s)).map (fun l => rstrip (collapseWS l))))

/-- The fixed configured rubric headings (module-level `headings` list). -/
def headings : List Str :=
  ["Coerenza narrativa".toList, "Originalità".toList,
   "Impatto emotivo".toList, "Azione".toList]

/-- First index at which `p` occurs in `t` (Python `t.find(p)`, with `-1`
rendered as `none`). -/
def findAt (p : Str) : Str → Option Nat
  | [] => if p = [] then some 0 else none
  | c :: t' =>
    if (c :: t').take p.length = p then some 0
    else (findAt p t').map (· + 1)

/-- `t.find(p, start)`. -/
def pyFind (t p : Str) (start : Nat) : Option Nat :=
  (findAt p (t.drop start)).map (· + start)

/-- `p` occurs in `t` at index `i`. -/
def occursAt (t p : Str) (i : Nat) : Prop := (t.drop i).take p.length = p

/-- `p` occurs somewhere in `t` (Boolean, for hypotheses). -/
def hasOccur (t p : Str) : Bool := (findAt p t).isSome

/-- `re.match(r'^\s*([1-5])\s*$', line)`: optional whitespace, one digit
`1`-`5` captured as the score, optional whitespace, end. -/
def scoreOf (ln : Str) : Option Nat :=
  match ln.dropWhile pyWS with
  | [] => none
  | c :: rest =>
    if ('1' ≤ c ∧ c ≤ '5') ∧ rest.all pyWS then some (c.toNat - '0'.toNat)
    else none

/-- `[ln.strip() for ln in s.split('\n') if ln.strip() != '']`. -/
def procLines (s : Str) : List Str :=
  ((splitLines s).map strip).filter (fun l => !l.isEmpty)

/-- The score-line scan of `extract`: first line matching the score pattern
gives the score; the lines strictly after it, space-joined and stripped,
give the explanation. -/
def sectionScan : List Str → Option (Nat × Str)
  | [] => none
  | ln :: rest =>
    match scoreOf ln with
    | some d => some (d, strip (joinSp rest))
    | none => sectionScan rest

/-- `low.find(heading.lower())` of `extract`. -/
def findHeading (normalized h : Str) : Option Nat :=
  findAt (lowerS h) (lowerS normalized)

/-- The `next_idx` loop of `extract`, generalized over the scanned list:
starting from `init`, replace the accumulator by any strictly smaller
found index of another heading. -/
def nextIdxFold (low hlow : Str) (after : Nat) (hs : List Str) (init : Nat) : Nat :=
  hs.foldl (fun acc h =>
    if lowerS h = hlow then acc
    else
      match pyFind low (lowerS h) after with
      | some j => if j < acc then j else acc
      | none => acc) init

/-- `next_idx` of `extract`: end offset of the section that starts at
`after`, initialized to the text length. -/
def sectionEnd (normalized hlow : Str) (after : Nat) : Nat :=
  nextIdxFold (lowerS normalized) hlow after headings normalized.length

/-- `normalized[after:next_idx].strip()` of `extract`. -/
def sectionOf (normalized h : Str) (idx : Nat) : Str :=
  strip ((normalized.drop (idx + h.length)).take
    (sectionEnd normalized (lowerS h) (idx + h.length) - (idx + h.length)))

/-- The `extract` closure of `try_parse`: `none` when the heading is not
found, `some none` when found with empty section or no score line
(Python `(None, None)`), `some (some (score, explanation))` otherwise. -/
def extract (normalized h : Str) : Option (Option (Nat × Str)) :=
  match findHeading normalized h with
  | none => none
  | some idx =>
    if sectionOf normalized h idx = [] then some none
    else some (sectionScan (procLines (sectionOf normalized h idx)))

/-- The heading loop of `try_parse`, with the `results` dict as an
association list in insertion order and the `missing` accumulator. -/
def tpLoop (N : Str) : List Str → List (Str × Nat × Str) → List Str →
    Bool × Option (List (Str × Nat × Str)) × Option Str
  | [], results, missing =>
    if missing = [] then (true, some results, none)
    else (false, none, some ("missing_sections:".toList ++ joinComma missing))
  | h :: hs, results, missing =>
    match extract N h with
    | none => tpLoop N hs results (missing ++ [h])
    | some none => (false, none, some ("missing_score_for_".toList ++ h))
    | some (some (sc, ex)) => tpLoop N hs (results ++ [(h, sc, ex)]) missing

/-- `try_parse` on a `None`-or-string input: the `(ok, results, error)`
triple of the script. -/
def try_parse : Option Str → Bool × Option (List (Str × Nat × Str)) × Option Str
  | none => (false, none, some "empty".toList)
  | some t =>
    if strip t = [] then (false, none, some "empty".toList)
    else tpLoop (normalize_text (some t)) headings [] []

/-- JSON values, as produced by `json.loads` (numbers as rationals: only
their truthiness matters downstream; objects as key/value lists in
source order, later duplicates overriding earlier ones). -/
inductive JVal where
  | jnull : JVal
  | jbool : Bool → JVal
  | jnum : ℚ → JVal
  | jstr : Str → JVal
  | jarr : List JVal → JVal
  | jobj : List (Str × JVal) → JVal

/-- Python truthiness of a JSON value. -/
def jtruthy : JVal → Bool
  | JVal.jnull => false
  | JVal.jbool b => b
  | JVal.jnum q => decide (q ≠ 0)
  | JVal.jstr s => !s.isEmpty
  | JVal.jarr l => !l.isEmpty
  | JVal.jobj f => !f.isEmpty

/-- `dict.get(key)` on a JSON object: last binding of the key wins, as in a
Python dict built from JSON source order. -/
def oget : List (Str × JVal) → Str → Option JVal
  | [], _ => none
  | (k, v) :: rest, key =>
    match oget rest key with
    | some w => some w
    | none => if k = key then some v else none

/-- Truthiness of `dict.get(key)` (missing key gives `None`, falsy). -/
def truthyO : Option JVal → Bool
  | none => false
  | some v => jtruthy v

/-- A Python value handed from `unwrap_raw` to `try_parse`: `None`, a
string, or some other (non-string) deserialized value. -/
inductive PyVal where
  | pnone : PyVal
  | pstr : Str → PyVal
  | pother : JVal → PyVal

/-- A JSON value as the Python value it deserializes to. -/
def toPy : JVal → PyVal
  | JVal.jstr s => PyVal.pstr s
  | v => PyVal.pother v

/-- `toPy` after a `dict.get` known to have succeeded (the `none` branch is
unreachable under the truthiness guards of `unwrap_raw`). -/
def toPyO (s : Str) : Option JVal → PyVal
  | some v => toPy v
  | none => PyVal.pstr s

/-- The final dict shape of `unwrap_raw`: `'content' in obj` holding a
string returns it, anything else falls back to the raw payload. -/
def dictContentFallback (s : Str) (f : List (Str × JVal)) : PyVal :=
  match oget f "content".toList with
  | some (JVal.jstr c) => PyVal.pstr c
  | _ => PyVal.pstr s

/-- The message-list loop of `unwrap_raw`: first dict element whose `role`
lowercases to `assistant` and whose `content` is truthy returns that
content; a present non-string `role` raises (`.lower()` on a non-string),
which the surrounding `except` turns into the raw fallback. -/
def listScan : List JVal → Except Unit (Option JVal)
  | [] => Except.ok none
  | el :: rest =>
    match el with
    | JVal.jobj f =>
      match oget f "role".toList with
      | none => listScan rest
      | some (JVal.jstr r) =>
        if lowerS r = "assistant".toList ∧ truthyO (oget f "content".toList) then
          Except.ok (oget f "content".toList)
        else listScan rest
      | some _ => Except.error ()
    | _ => listScan rest

/-- The shape dispatch of `unwrap_raw` on a successfully parsed value,
in the script's order: role/content object, nested `message` object,
assistant message list, bare string `content`, raw fallback. -/
def unwrapVal (s : Str) (obj : JVal) : PyVal :=
  match obj with
  | JVal.jobj f =>
    if truthyO (oget f "role".toList) ∧ truthyO (oget f "content".toList) then
      toPyO s (oget f "content".toList)
    else
      match oget f "message".toList with
      | some (JVal.jobj mf) =>
        if truthyO (oget mf "content".toList) then toPyO s (oget mf "content".toList)
        else dictContentFallback s f
      | _ => dictContentFallback s f
  | JVal.jarr els =>
    match listScan els with
    | Except.ok (some v) => toPy v
    | _ => PyVal.pstr s
  | _ => PyVal.pstr s

/-- `unwrap_raw`.  The outcome of the library call `json.loads raw` is
passed explicitly as `parsed` (`none` models a parse failure, which the
`except` clause turns into the raw fallback); everything after the parse
follows the source.  Falsy input is returned unchanged. -/
def unwrap_raw (raw : Option Str) (parsed : Option JVal) : PyVal :=
  match raw with
  | none => PyVal.pnone
  | some s =>
    if s = [] then PyVal.pstr s
    else
      match parsed with
      | none => PyVal.pstr s
      | some obj => unwrapVal s obj

/-- `try_parse` on an arbitrary Python value.  A truthy non-string reaches
`text.strip()` and raises `AttributeError` (modelled as `Except.error`);
falsy values take the `empty` branch before any attribute access. -/
def tryParsePy : PyVal → Except Unit (Bool × Option (List (Str × Nat × Str)) × Option Str)
  | PyVal.pnone => Except.ok (try_parse none)
  | PyVal.pstr s => Except.ok (try_parse (some s))
  | PyVal.pother j =>
    if jtruthy j then Except.error ()
    else Except.ok (false, none, some "empty".toList)

/-- The per-record pipeline of the script's `main`: unwrap, then parse. -/
def pipeline (raw : Option Str) (parsed : Option JVal) :
    Except Unit (Bool × Option (List (Str × Nat × Str)) × Option Str) :=
  tryParsePy (unwrap_raw raw parsed)

/-- No two adjacent spaces anywhere in the text. -/
def noDoubleB : Str → Bool
  | [] => true
  | [_] => true
  | a :: b :: r => !(a = ' ' && b = ' ') && noDoubleB (b :: r)

/-- A line in the normal form `normalize_text` produces: its only whitespace
character is the single space, no two spaces are adjacent, and it carries
no trailing whitespace. -/
def goodLine (l : Str) : Prop :=
  (∀ c ∈ l, pyWS c = true → c = ' ') ∧ noDoubleB l = true ∧ rstrip l = l

/-- Drop trailing empty lines from a line list. -/
def rdropE : List Str → List Str
  | [] => []
  | m :: rest =>
    match rdropE rest with
    | [] => if m = [] then [] else [m]
    | r => m :: r

/-- One rubric section as laid out in an evaluation text: the heading on its
own line, then the section body. -/
def block (h b : Str) : Str := h ++ '\n' :: b

/-- An evaluation text assembled from heading sections in a given physical
order, with bodies given by `B`, one block per line group separated by
newlines. -/
def asm (B : Str → Str) : List Str → Str
  | [] => []
  | [h] => block h (B h)
  | h :: hs => block h (B h) ++ '\n' :: asm B hs

/-- `extract` yielded a full score/explanation result. -/
def scored : Option (Option (Nat × Str)) → Bool
  | some (some _) => true
  | _ => false

/-- `extract` did not take the early `missing_score` exit: the heading is
either absent or fully scored. -/
def noScoreExit : Option (Option (Nat × Str)) → Bool
  | some none => false
  | _ => true

/-- Claim C8 as stated, in its distinguishing part: every line of a
normalized text has had its leading whitespace removed entirely,
regardless of the line's position. -/
def c8LeadingRemovedClaim : Prop :=
  ∀ x : Option Str, ∀ l ∈ splitLines (normalize_text x), lstrip l = l

/-- A list element that is an object whose `role` field is a string
lowercasing to `assistant`. -/
def assistantRole (el : JVal) : Prop :=
  ∃ f r, el = JVal.jobj f ∧ oget f "role".toList = some (JVal.jstr r) ∧
    lowerS r = "assistant".toList

/-- Claim C9 as stated: on a payload deserializing to a list, `unwrap_raw`
returns the content string of the first element whose role equals
`assistant` case-insensitively, and returns the payload unchanged if no
element has role `assistant`. -/
def c9FirstAssistantClaim : Prop :=
  (∀ (s : Str) (pre rest : List JVal) (f : List (Str × JVal)) (c : Str),
    s ≠ [] → (∀ e ∈ pre, ¬ assistantRole e) →
    assistantRole (JVal.jobj f) → oget f "content".toList = some (JVal.jstr c) →
    unwrap_raw (some s) (some (JVal.jarr (pre ++ JVal.jobj f :: rest))) = PyVal.pstr c)
  ∧
  (∀ (s : Str) (els : List JVal), s ≠ [] → (∀ e ∈ els, ¬ assistantRole e) →
    unwrap_raw (some s) (some (JVal.jarr els)) = PyVal.pstr s)

/-- The `content` field of a list element, when the element is an object. -/
def contentOf : JVal → Option JVal
  | JVal.jobj f => oget f "content".toList
  | _ => none

/-- A list element that the message-list loop of `unwrap_raw` accepts: an
object whose `role` is a string lowercasing to `assistant` and whose
`content` is present and truthy. -/
def truthyAssistant (el : JVal) : Prop :=
  ∃ f r, el = JVal.jobj f ∧ oget f "role".toList = some (JVal.jstr r) ∧
    lowerS r = "assistant".toList ∧ truthyO (oget f "content".toList) = true

/-! ## Lemmas: occurrence search -/

theorem occursAt_zero {t p : Str} : occursAt t p 0 ↔ t.take p.length = p := by
  simp [occursAt]

theorem occursAt_cons_succ {c : Char} {t p : Str} {k : Nat} :
    occursAt (c :: t) p (k + 1) ↔ occursAt t p k := by
  simp [occursAt]

theorem occursAt_nil {p : Str} {k : Nat} : occursAt [] p k ↔ p = [] := by
  simp [occursAt, eq_comm]

theorem findAt_some_occurs {p t : Str} {j : Nat} (h : findAt p t = some j) :
    occursAt t p j := by
  induction t generalizing j with
  | nil =>
    simp only [findAt] at h
    by_cases hp : p = []
    · simp [hp] at h ⊢; simp [occursAt_nil, hp]
    · simp [hp] at h
  | cons c t ih =>
    simp only [findAt] at h
    by_cases htake : (c :: t).take p.length = p
    · simp [htake] at h; subst h; exact occursAt_zero.mpr htake
    · simp [htake] at h
      obtain ⟨j', hj', rfl⟩ := h
      exact occursAt_cons_succ.mpr (ih hj')

theorem findAt_some_least {p t : Str} {j : Nat} (h : findAt p t = some j) :
    ∀ k < j, ¬ occursAt t p k := by
  induction t generalizing j with
  | nil =>
    simp only [findAt] at h
    by_cases hp : p = []
    · simp [hp] at h; omega
    · simp [hp] at h
  | cons c t ih =>
    simp only [findAt] at h
    by_cases htake : (c :: t).take p.length = p
    · simp [htake] at h; omega
    · simp [htake] at h
      obtain ⟨j', hj', rfl⟩ := h
      intro k hk
      cases k with
      | zero => intro hocc; exact htake (occursAt_zero.mp hocc)
      | succ k' =>
        intro hocc
        exact ih hj' k' (by omega) (occursAt_cons_succ.mp hocc)

theorem findAt_none_no_occ {p t : Str} (h : findAt p t = none) :
    ∀ k, ¬ occursAt t p k := by
  induction t with
  | nil =>
    simp only [findAt] at h
    by_cases hp : p = []
    · simp [hp] at h
    · intro k; rw [occursAt_nil]; exact hp
  | cons c t ih =>
    simp only [findAt] at h
    by_cases htake : (c :: t).take p.length = p
    · simp [htake] at h
    · simp [htake] at h
      intro k
      cases k with
      | zero => intro hocc; exact htake (occursAt_zero.mp hocc)
      | succ k' => intro hocc; exact ih h k' (occursAt_cons_succ.mp hocc)

theorem findAt_eq_some {p t : Str} {j : Nat} (h1 : occursAt t p j)
    (h2 : ∀ k < j, ¬ occursAt t p k) : findAt p t = some j := by
  cases hf : findAt p t with
  | none => exact absurd h1 (findAt_none_no_occ hf j)
  | some j' =>
    have hocc' := findAt_some_occurs hf
    rcases Nat.lt_trichotomy j' j with hlt | heq | hgt
    · exact absurd hocc' (h2 j' hlt)
    · rw [heq]
    · exact absurd h1 (findAt_some_least hf j hgt)

theorem findAt_eq_none {p t : Str} (h : ∀ k, ¬ occursAt t p k) :
    findAt p t = none := by
  cases hf : findAt p t with
  | none => rfl
  | some j => exact absurd (findAt_some_occurs hf) (h j)

theorem occursAt_of_drop {t p : Str} {st k : Nat} :
    occursAt (t.drop st) p k ↔ occursAt t p (st + k) := by
  simp [occursAt, List.drop_drop]

theorem pyFind_eq_some {t p : Str} {st j : Nat} (h1 : st ≤ j) (h2 : occursAt t p j)
    (h3 : ∀ k, st ≤ k → k < j → ¬ occursAt t p k) : pyFind t p st = some j := by
  unfold pyFind
  have : findAt p (t.drop st) = some (j - st) := by
    apply findAt_eq_some
    · rw [occursAt_of_drop]; rwa [Nat.add_sub_cancel' h1]
    · intro k hk
      rw [occursAt_of_drop]
      exact h3 (st + k) (Nat.le_add_right st k) (by omega)
  rw [this]; simp; omega

theorem pyFind_eq_none {t p : Str} {st : Nat}
    (h : ∀ k, st ≤ k → ¬ occursAt t p k) : pyFind t p st = none := by
  unfold pyFind
  have : findAt p (t.drop st) = none := by
    apply findAt_eq_none
    intro k
    rw [occursAt_of_drop]
    exact h (st + k) (Nat.le_add_right st k)
  rw [this]; rfl

theorem pyFind_some_occurs {t p : Str} {st j : Nat} (h : pyFind t p st = some j) :
    st ≤ j ∧ occursAt t p j := by
  unfold pyFind at h
  cases hf : findAt p (t.drop st) with
  | none => rw [hf] at h; simp at h
  | some j' =>
    rw [hf] at h; simp at h
    have := findAt_some_occurs hf
    rw [occursAt_of_drop] at this
    constructor
    · omega
    · rw [Nat.add_comm] at this; rwa [h] at this

/-! ## Lemmas: line splitting and joining -/

theorem splitLines_ne_nil (s : Str) : splitLines s ≠ [] := by
  cases s with
  | nil => simp [splitLines]
  | cons c rest =>
    simp only [splitLines]
    by_cases hc : c = '\n'
    · simp [hc]
    · simp only [hc, if_false]
      cases splitLines rest <;> simp

theorem joinNL_cons_of_ne_nil {l : Str} {ls : List Str} (h : ls ≠ []) :
    joinNL (l :: ls) = l ++ '\n' :: joinNL ls := by
  cases ls with
  | nil => exact absurd rfl h
  | cons l' ls' => rfl

theorem joinNL_splitLines (s : Str) : joinNL (splitLines s) = s := by
  induction s with
  | nil => rfl
  | cons c rest ih =>
    simp only [splitLines]
    by_cases hc : c = '\n'
    · simp only [hc, if_true, eq_self_iff_true, if_pos]
      rw [joinNL_cons_of_ne_nil (splitLines_ne_nil rest)]
      simp [ih]
    · simp only [hc, if_false]
      cases hsl : splitLines rest with
      | nil => exact absurd hsl (splitLines_ne_nil rest)
      | cons h t =>
        rw [hsl] at ih
        cases t with
        | nil => simpa [joinNL] using congrArg (c :: ·) ih
        | cons t0 ts =>
          rw [joinNL_cons_of_ne_nil (by simp)] at ih ⊢
          simpa using congrArg (c :: ·) ih

theorem splitLines_no_nl {s : Str} : ∀ l ∈ splitLines s, '\n' ∉ l := by
  induction s with
  | nil => simp [splitLines]
  | cons c rest ih =>
    simp only [splitLines]
    by_cases hc : c = '\n'
    · simp only [hc, if_true, eq_self_iff_true, if_pos]
      intro l hl
      rcases List.mem_cons.mp hl with rfl | hl'
      · simp
      · exact ih l hl'
    · simp only [hc, if_false]
      cases hsl : splitLines rest with
      | nil => exact absurd hsl (splitLines_ne_nil rest)
      | cons h t =>
        intro l hl
        rcases List.mem_cons.mp hl with rfl | hl'
        · intro hmem
          rcases List.mem_cons.mp hmem with rfl | hmem'
          · exact hc rfl
          · exact ih h (hsl ▸ List.mem_cons_self h t) hmem'
        · exact ih l (hsl ▸ List.mem_cons_of_mem h hl')

theorem splitLines_append_nl (x y : Str) :
    splitLines (x ++ '\n' :: y) = splitLines x ++ splitLines y := by
  induction x with
  | nil => simp [splitLines]
  | cons c x' ih =>
    by_cases hc : c = '\n'
    · simp only [List.cons_append, splitLines, hc, if_true, eq_self_iff_true, if_pos,
        List.append_eq, ih]
    · simp only [List.cons_append, splitLines, hc, if_false]
      cases hsl : splitLines (x' ++ '\n' :: y) with
      | nil => exact absurd hsl (splitLines_ne_nil _)
      | cons h t =>
        rw [hsl] at ih
        cases hsx : splitLines x' with
        | nil => exact absurd hsx (splitLines_ne_nil x')
        | cons hx tx =>
          rw [hsx] at ih
          simp only [List.cons_append] at ih
          rw [List.cons.injEq] at ih
          simp [ih.1, ih.2]

theorem splitLines_of_no_nl {x : Str} (h : '\n' ∉ x) : splitLines x = [x] := by
  induction x with
  | nil => rfl
  | cons c x' ih =>
    have hc : c ≠ '\n' := fun hcc => h (hcc ▸ List.mem_cons_self c x')
    have hx' : '\n' ∉ x' := fun hm => h (List.mem_cons_of_mem c hm)
    simp only [splitLines, hc, if_false, ih hx']

theorem splitLines_joinNL {ls : List Str} (hnl : ∀ l ∈ ls, '\n' ∉ l) (hne : ls ≠ []) :
    splitLines (joinNL ls) = ls := by
  induction ls with
  | nil => exact absurd rfl hne
  | cons l ls' ih =>
    cases ls' with
    | nil => exact splitLines_of_no_nl (hnl l (List.mem_cons_self l []))
    | cons l0 ls0 =>
      rw [joinNL_cons_of_ne_nil (by simp)]
      rw [splitLines_append_nl, splitLines_of_no_nl (hnl l (List.mem_cons_self l _))]
      rw [ih (fun m hm => hnl m (List.mem_cons_of_mem l hm)) (by simp)]
      rfl

theorem line_decomp {s l : Str} (h : l ∈ splitLines s) : ∃ u v, s = u ++ l ++ v := by
  induction s with
  | nil =>
    simp [splitLines] at h
    exact ⟨[], [], by simp [h]⟩
  | cons c s' ih =>
    simp only [splitLines] at h
    by_cases hc : c = '\n'
    · rw [if_pos hc] at h
      rcases List.mem_cons.mp h with rfl | h'
      · exact ⟨[], c :: s', by simp⟩
      · obtain ⟨u, v, huv⟩ := ih h'
        exact ⟨c :: u, v, by simp [huv]⟩
    · rw [if_neg hc] at h
      cases hsl : splitLines s' with
      | nil => exact absurd hsl (splitLines_ne_nil s')
      | cons h0 t0 =>
        rw [hsl] at h
        rcases List.mem_cons.mp h with rfl | h'
        · have : s' = joinNL (h0 :: t0) := by rw [← hsl, joinNL_splitLines]
          cases t0 with
          | nil => exact ⟨[], [], by simp [this, joinNL]⟩
          | cons t1 ts =>
            rw [joinNL_cons_of_ne_nil (by simp)] at this
            refine ⟨[], '\n' :: joinNL (t1 :: ts), ?_⟩
            simp [this]
        · have hmem : l ∈ splitLines s' := by rw [hsl]; exact List.mem_cons_of_mem h0 h'
          obtain ⟨u, v, huv⟩ := ih hmem
          exact ⟨c :: u, v, by simp [huv]⟩

/-! ## Lemmas: localizing occurrences to lines -/

theorem occursAt_bound {t p : Str} {k : Nat} (hp : p ≠ []) (h : occursAt t p k) :
    k + p.length ≤ t.length := by
  unfold occursAt at h
  have hlen := congrArg List.length h
  simp [List.length_take] at hlen
  rcases Nat.le_total t.length k with hk | hk
  · exfalso
    rw [List.drop_eq_nil_of_le hk] at h
    simp only [List.take_nil] at h
    exact hp h.symm
  · omega

theorem occursAt_get {t p : Str} {k : Nat} (h : occursAt t p k) :
    ∀ j < p.length, t[k + j]? = p[j]? := by
  intro j hj
  unfold occursAt at h
  calc t[k + j]? = (t.drop k)[j]? := (List.getElem?_drop t k j).symm
    _ = ((t.drop k).take p.length)[j]? := by rw [List.getElem?_take, if_pos hj]
    _ = p[j]? := by rw [h]

theorem nl_mem_of_occursAt_cover {t p : Str} {k m : Nat} (h : occursAt t p k)
    (hm1 : k ≤ m) (hm2 : m < k + p.length) (hc : t[m]? = some '\n') : '\n' ∈ p := by
  have hg := occursAt_get h (m - k) (by omega)
  rw [Nat.add_sub_cancel' hm1] at hg
  rw [hc] at hg
  exact List.getElem?_mem hg.symm

theorem occursAt_append_left {u w p : Str} {k : Nat} (h : occursAt w p k) :
    occursAt (u ++ w) p (u.length + k) := by
  unfold occursAt at h ⊢
  rw [← List.drop_drop, List.drop_left]
  exact h

theorem occursAt_append_right {t v p : Str} {j : Nat} (h : occursAt t p j) :
    occursAt (t ++ v) p j := by
  unfold occursAt at h ⊢
  rcases Nat.le_total t.length j with hj | hj
  · rw [List.drop_eq_nil_of_le hj] at h
    simp only [List.take_nil] at h
    rw [← h]
    simp
  · rw [List.drop_append_of_le_length hj]
    have hlen := congrArg List.length h
    simp [List.length_take] at hlen
    have : p.length ≤ (t.drop j).length := by simp; omega
    rw [List.take_append_of_le_length this, h]

theorem occursAt_of_append_region {X Y p : Str} {k : Nat} (h : occursAt (X ++ Y) p k)
    (hk : k + p.length ≤ X.length) : occursAt X p k := by
  unfold occursAt at h ⊢
  rw [List.drop_append_of_le_length (by omega)] at h
  have : p.length ≤ (X.drop k).length := by simp; omega
  rw [List.take_append_of_le_length this] at h
  exact h

theorem take_headD_of_take {ps : Str} :
    ∀ {s : Str}, s.take ps.length = ps → '\n' ∉ ps →
      ((splitLines s).headD []).take ps.length = ps := by
  induction ps with
  | nil => intro s _ _; simp
  | cons q qs ih =>
    intro s h hnl
    cases s with
    | nil => simp at h
    | cons c s' =>
      simp only [List.length_cons, List.take_succ_cons, List.cons.injEq] at h
      have h1 : c = q := h.1
      have hq : s'.take qs.length = qs := h.2
      have hqnl : q ≠ '\n' := fun hcc => hnl (hcc ▸ List.mem_cons_self q qs)
      have hcnl : c ≠ '\n' := h1 ▸ hqnl
      have ihq := ih hq (fun hm => hnl (List.mem_cons_of_mem q hm))
      simp only [splitLines, hcnl, if_false]
      cases hsl : splitLines s' with
      | nil => exact absurd hsl (splitLines_ne_nil s')
      | cons h0 t0 =>
        rw [hsl] at ihq
        simp only [List.headD_cons] at ihq ⊢
        simp [List.take_succ_cons, ihq, h1]

theorem occursAt_in_some_line {s p : Str} (hnl : '\n' ∉ p) :
    ∀ {k : Nat}, occursAt s p k → ∃ l ∈ splitLines s, ∃ j, occursAt l p j := by
  induction s with
  | nil =>
    intro k h
    rw [occursAt_nil] at h
    exact ⟨[], by simp [splitLines], 0, by simp [occursAt, h]⟩
  | cons c s' ih =>
    intro k h
    cases k with
    | zero =>
      rw [occursAt_zero] at h
      cases hp : p with
      | nil =>
        refine ⟨(splitLines (c :: s')).headD [], ?_, 0, by simp [occursAt, hp]⟩
        cases hsl : splitLines (c :: s') with
        | nil => exact absurd hsl (splitLines_ne_nil _)
        | cons a b => simp
      | cons q qs =>
        rw [hp] at h hnl
        have hhead := take_headD_of_take h hnl
        have h1 : c = q := by
          simp only [List.length_cons, List.take_succ_cons, List.cons.injEq] at h
          exact h.1
        have hqnl : q ≠ '\n' := fun hcc => hnl (hcc ▸ List.mem_cons_self q qs)
        have hcnl : c ≠ '\n' := h1 ▸ hqnl
        cases hsl : splitLines s' with
        | nil => exact absurd hsl (splitLines_ne_nil s')
        | cons h0 t0 =>
          have hsl2 : splitLines (c :: s') = (c :: h0) :: t0 := by
            simp [splitLines, hcnl, hsl]
          rw [hsl2] at hhead
          simp only [List.headD_cons] at hhead
          refine ⟨c :: h0, ?_, 0, ?_⟩
          · rw [hsl2]; exact List.mem_cons_self _ _
          · rw [occursAt_zero]; exact hhead
    | succ k' =>
      have h' : occursAt s' p k' := occursAt_cons_succ.mp h
      obtain ⟨l, hl, j, hj⟩ := ih h'
      by_cases hc : c = '\n'
      · exact ⟨l, by simp [splitLines, hc, hl], j, hj⟩
      · cases hsl : splitLines s' with
        | nil => exact absurd hsl (splitLines_ne_nil s')
        | cons h0 t0 =>
          rw [hsl] at hl
          rcases List.mem_cons.mp hl with rfl | hl'
          · refine ⟨c :: l, ?_, j + 1, occursAt_cons_succ.mpr hj⟩
            simp [splitLines, hc, hsl]
          · refine ⟨l, ?_, j, hj⟩
            simp [splitLines, hc, hsl, List.mem_cons_of_mem, hl']

theorem occursAt_of_line {s p l : Str} (hl : l ∈ splitLines s) {j : Nat}
    (h : occursAt l p j) : ∃ k, occursAt s p k := by
  obtain ⟨u, v, rfl⟩ := line_decomp hl
  exact ⟨u.length + j, by
    rw [List.append_assoc]
    exact occursAt_append_left (occursAt_append_right h)⟩

theorem findAt_none_of_lines {s p : Str} (hnl : '\n' ∉ p)
    (h : ∀ l ∈ splitLines s, findAt p l = none) : findAt p s = none := by
  apply findAt_eq_none
  intro k hk
  obtain ⟨l, hl, j, hj⟩ := occursAt_in_some_line hnl hk
  exact findAt_none_no_occ (h l hl) j hj

/-! ## Lemmas: whitespace collapsing and stripping -/

theorem collapse_cons_not_ws {c : Char} {rest : Str} (h : pyWS c = false) :
    collapseWS (c :: rest) = c :: collapseWS rest := by
  simp [collapseWS, h]

theorem collapse_cons_ws_nil {c : Char} {rest : Str} (h : pyWS c = true)
    (hcr : collapseWS rest = []) : collapseWS (c :: rest) = [' '] := by
  simp only [collapseWS, h, if_true]
  rw [hcr]

theorem collapse_cons_ws_cons {c d : Char} {rest t : Str} (h : pyWS c = true)
    (hcr : collapseWS rest = d :: t) :
    collapseWS (c :: rest) = if d = ' ' then ' ' :: t else ' ' :: d :: t := by
  simp only [collapseWS, h, if_true]
  rw [hcr]

theorem noDoubleB_cons_iff {a : Char} {r : Str} :
    noDoubleB (a :: r) = true ↔
      (noDoubleB r = true ∧ ¬(a = ' ' ∧ r.head? = some ' ')) := by
  cases r with
  | nil => simp [noDoubleB]
  | cons b r' =>
    simp only [noDoubleB, List.head?_cons, Option.some.injEq, Bool.and_eq_true,
      Bool.not_eq_true']
    constructor
    · rintro ⟨hab, hr⟩
      refine ⟨hr, ?_⟩
      rintro ⟨rfl, rfl⟩
      simp at hab
    · rintro ⟨hr, hab⟩
      refine ⟨?_, hr⟩
      by_cases ha : a = ' '
      · by_cases hb : b = ' '
        · exact absurd ⟨ha, hb⟩ hab
        · simp [ha, hb]
      · simp [ha]

theorem mem_collapseWS {l : Str} :
    ∀ c ∈ collapseWS l, c = ' ' ∨ (c ∈ l ∧ pyWS c = false) := by
  induction l with
  | nil => simp [collapseWS]
  | cons c rest ih =>
    intro x hx
    by_cases hc : pyWS c
    · have hx' : x = ' ' ∨ x ∈ collapseWS rest := by
        cases hcr : collapseWS rest with
        | nil => rw [collapse_cons_ws_nil hc hcr] at hx; simp at hx; exact Or.inl hx
        | cons d t =>
          rw [collapse_cons_ws_cons hc hcr] at hx
          by_cases hd : d = ' '
          · rw [if_pos hd] at hx
            rcases List.mem_cons.mp hx with rfl | hxt
            · exact Or.inl rfl
            · exact Or.inr (List.mem_cons_of_mem d hxt)
          · rw [if_neg hd] at hx
            rcases List.mem_cons.mp hx with rfl | hxt
            · exact Or.inl rfl
            · exact Or.inr hxt
      rcases hx' with rfl | hx'
      · exact Or.inl rfl
      · rcases ih x hx' with h1 | ⟨h2, h3⟩
        · exact Or.inl h1
        · exact Or.inr ⟨List.mem_cons_of_mem c h2, h3⟩
    · rw [collapse_cons_not_ws (by simpa using hc)] at hx
      rcases List.mem_cons.mp hx with rfl | hx'
      · exact Or.inr ⟨List.mem_cons_self _ _, by simpa using hc⟩
      · rcases ih x hx' with h1 | ⟨h2, h3⟩
        · exact Or.inl h1
        · exact Or.inr ⟨List.mem_cons_of_mem c h2, h3⟩

theorem noDoubleB_collapse (l : Str) : noDoubleB (collapseWS l) = true := by
  induction l with
  | nil => simp [collapseWS, noDoubleB]
  | cons c rest ih =>
    by_cases hc : pyWS c
    · cases hcr : collapseWS rest with
      | nil => rw [collapse_cons_ws_nil hc hcr]; simp [noDoubleB]
      | cons d t =>
        rw [collapse_cons_ws_cons hc hcr]
        by_cases hd : d = ' '
        · rw [if_pos hd]
          have hdt : noDoubleB (d :: t) = true := by rw [← hcr]; exact ih
          rw [hd] at hdt
          exact hdt
        · rw [if_neg hd]
          rw [noDoubleB_cons_iff]
          refine ⟨by rw [← hcr]; exact ih, ?_⟩
          rintro ⟨-, hh⟩
          simp only [List.head?_cons, Option.some.injEq] at hh
          exact hd hh
    · rw [collapse_cons_not_ws (by simpa using hc)]
      rw [noDoubleB_cons_iff]
      refine ⟨ih, ?_⟩
      rintro ⟨rfl, -⟩
      simp [pyWS] at hc

theorem collapse_fixed {l : Str} (h1 : ∀ c ∈ l, pyWS c = true → c = ' ')
    (h2 : noDoubleB l = true) : collapseWS l = l := by
  induction l with
  | nil => rfl
  | cons c rest ih =>
    have h2' := (noDoubleB_cons_iff.mp h2).1
    have hnd := (noDoubleB_cons_iff.mp h2).2
    have ihr := ih (fun x hx hws => h1 x (List.mem_cons_of_mem c hx) hws) h2'
    by_cases hc : pyWS c
    · have hcs : c = ' ' := h1 c (List.mem_cons_self c rest) hc
      subst hcs
      cases hrest : rest with
      | nil => exact collapse_cons_ws_nil hc rfl
      | cons d r' =>
        rw [hrest] at ihr hnd
        have hd : d ≠ ' ' := by
          intro hds
          exact hnd ⟨rfl, by simp [hds]⟩
        rw [collapse_cons_ws_cons hc ihr, if_neg hd]
    · rw [collapse_cons_not_ws (by simpa using hc), ihr]

theorem dropWhile_idem (p : Char → Bool) (l : Str) :
    List.dropWhile p (List.dropWhile p l) = List.dropWhile p l := by
  induction l with
  | nil => rfl
  | cons c rest ih =>
    by_cases hc : p c
    · simp [List.dropWhile_cons, hc, ih]
    · simp [List.dropWhile_cons, hc]

theorem lstrip_idem (s : Str) : lstrip (lstrip s) = lstrip s :=
  dropWhile_idem pyWS s

theorem rstrip_idem (s : Str) : rstrip (rstrip s) = rstrip s := by
  unfold rstrip
  rw [List.reverse_reverse, dropWhile_idem]

theorem rstrip_spec (s : Str) :
    ∃ w, s = rstrip s ++ w ∧ ∀ c ∈ w, pyWS c = true := by
  refine ⟨(s.reverse.takeWhile pyWS).reverse, ?_, ?_⟩
  · unfold rstrip
    rw [← List.reverse_append, List.takeWhile_append_dropWhile, List.reverse_reverse]
  · intro c hc
    rw [List.mem_reverse] at hc
    exact List.mem_takeWhile_imp hc

theorem lstrip_spec (s : Str) :
    ∃ w, s = w ++ lstrip s ∧ ∀ c ∈ w, pyWS c = true := by
  refine ⟨s.takeWhile pyWS, ?_, ?_⟩
  · unfold lstrip
    rw [List.takeWhile_append_dropWhile]
  · intro c hc
    exact List.mem_takeWhile_imp hc

theorem lstrip_head_not_ws {s : Str} {c : Char} (h : (lstrip s).head? = some c) :
    pyWS c = false := by
  have := List.head?_dropWhile_not pyWS s
  unfold lstrip at h
  rw [h] at this
  exact this

theorem rstrip_getLast_not_ws {s : Str} {c : Char}
    (h : (rstrip s).getLast? = some c) : pyWS c = false := by
  unfold rstrip at h
  rw [List.getLast?_reverse] at h
  have := List.head?_dropWhile_not pyWS s.reverse
  rw [h] at this
  exact this

theorem rstrip_eq_self {s : Str} (h : ∀ c, s.getLast? = some c → pyWS c = false) :
    rstrip s = s := by
  unfold rstrip
  cases hr : s.reverse with
  | nil => simp [List.reverse_eq_nil_iff.mp hr]
  | cons c t =>
    have hc : s.getLast? = some c := by
      rw [← List.head?_reverse, hr, List.head?_cons]
    rw [List.dropWhile_cons, h c hc]
    simp only [if_false, Bool.false_eq_true]
    rw [← hr, List.reverse_reverse]

theorem lstrip_eq_self {s : Str} (h : ∀ c, s.head? = some c → pyWS c = false) :
    lstrip s = s := by
  unfold lstrip
  cases s with
  | nil => rfl
  | cons c t =>
    rw [List.dropWhile_cons, h c (List.head?_cons)]
    simp

theorem rstrip_append_ws {c : Char} (h : pyWS c = true) (x : Str) :
    rstrip (x ++ [c]) = rstrip x := by
  unfold rstrip
  rw [List.reverse_append]
  simp [List.dropWhile_cons, h]

theorem lstrip_cons_ws {c : Char} (h : pyWS c = true) (s : Str) :
    lstrip (c :: s) = lstrip s := by
  unfold lstrip
  rw [List.dropWhile_cons, h]
  simp

theorem strip_cons_ws {c : Char} (h : pyWS c = true) (s : Str) :
    strip (c :: s) = strip s := by
  unfold strip
  unfold rstrip
  rw [List.reverse_cons, List.dropWhile_append]
  by_cases he : (s.reverse.dropWhile pyWS).isEmpty
  · rw [if_pos he]
    simp only [List.dropWhile_cons, h, if_true]
    simp only [List.dropWhile_nil, List.reverse_nil]
    rw [List.isEmpty_iff] at he
    rw [he]
    rfl
  · rw [if_neg he]
    rw [List.reverse_append]
    simp only [List.reverse_cons, List.reverse_nil, List.nil_append,
      List.singleton_append]
    exact lstrip_cons_ws h _

theorem strip_append_ws {c : Char} (h : pyWS c = true) (x : Str) :
    strip (x ++ [c]) = strip x := by
  unfold strip
  rw [rstrip_append_ws h]

theorem strip_idem (s : Str) : strip (strip s) = strip s := by
  unfold strip
  have hrl : rstrip (lstrip (rstrip s)) = lstrip (rstrip s) := by
    apply rstrip_eq_self
    intro d hd
    obtain ⟨w, hw, hws⟩ := lstrip_spec (rstrip s)
    have hlast : (rstrip s).getLast? = some d := by
      rw [hw, List.getLast?_append, hd]
      rfl
    exact rstrip_getLast_not_ws hlast
  rw [hrl, lstrip_idem]

/-! ## Lemmas: processed section lines are stable under outer whitespace -/

theorem splitLines_concat_nl (x : Str) : splitLines (x ++ ['\n']) = splitLines x ++ [[]] := by
  have := splitLines_append_nl x []
  simpa [splitLines] using this

theorem splitLines_concat_char {c : Char} (hc : c ≠ '\n') :
    ∀ x : Str, ∃ ls last, splitLines x = ls ++ [last] ∧
      splitLines (x ++ [c]) = ls ++ [last ++ [c]] := by
  intro x
  induction x with
  | nil => exact ⟨[], [], rfl, by simp [splitLines, hc]⟩
  | cons d x' ih =>
    obtain ⟨ls, last, h1, h2⟩ := ih
    by_cases hd : d = '\n'
    · subst hd
      refine ⟨[] :: ls, last, ?_, ?_⟩
      · simp [splitLines, h1]
      · have hstep : splitLines ('\n' :: (x' ++ [c])) = [] :: splitLines (x' ++ [c]) := by
          simp [splitLines]
        rw [List.cons_append, hstep, h2]
        simp
    · have hstep : splitLines (d :: (x' ++ [c])) =
          match splitLines (x' ++ [c]) with
          | [] => [[d]]
          | l :: ls => (d :: l) :: ls := by
        simp [splitLines, hd]
      cases ls with
      | nil =>
        simp only [List.nil_append] at h1 h2
        refine ⟨[], d :: last, ?_, ?_⟩
        · simp [splitLines, hd, h1]
        · rw [List.cons_append, hstep, h2]
          simp
      | cons l0 ls' =>
        refine ⟨(d :: l0) :: ls', last, ?_, ?_⟩
        · simp only [splitLines, hd, if_false, h1]
          simp
        · rw [List.cons_append, hstep, h2]
          simp

theorem procLines_cons_ws {c : Char} (h : pyWS c = true) (s : Str) :
    procLines (c :: s) = procLines s := by
  by_cases hc : c = '\n'
  · subst hc
    unfold procLines
    simp [splitLines, strip, lstrip, rstrip]
  · unfold procLines
    cases hsl : splitLines s with
    | nil => exact absurd hsl (splitLines_ne_nil s)
    | cons h0 t0 =>
      have hcs : splitLines (c :: s) = (c :: h0) :: t0 := by
        simp [splitLines, hc, hsl]
      rw [hcs]
      simp only [List.map_cons]
      rw [strip_cons_ws h]

theorem procLines_concat_ws {c : Char} (h : pyWS c = true) (s : Str) :
    procLines (s ++ [c]) = procLines s := by
  by_cases hc : c = '\n'
  · subst hc
    unfold procLines
    rw [splitLines_concat_nl]
    simp [strip, lstrip, rstrip]
  · obtain ⟨ls, last, h1, h2⟩ := splitLines_concat_char hc s
    unfold procLines
    rw [h1, h2]
    simp only [List.map_append, List.filter_append, List.map_cons, List.map_nil,
      List.filter_cons, List.filter_nil]
    rw [strip_append_ws h]

theorem procLines_lstrip (s : Str) : procLines (lstrip s) = procLines s := by
  induction s with
  | nil => rfl
  | cons c s' ih =>
    by_cases hc : pyWS c
    · rw [lstrip_cons_ws hc, ih, procLines_cons_ws hc]
    · rw [lstrip_eq_self]
      intro d hd
      simp only [List.head?_cons, Option.some.injEq] at hd
      rw [← hd]
      simpa using hc

theorem procLines_append_all_ws {w : Str} (hw : ∀ c ∈ w, pyWS c = true) :
    ∀ u : Str, procLines (u ++ w) = procLines u := by
  induction w using List.reverseRecOn with
  | nil => simp
  | append_singleton w' c ih =>
    intro u
    have hc : pyWS c = true := hw c (by simp)
    have hw' : ∀ d ∈ w', pyWS d = true := fun d hd => hw d (by simp [hd])
    rw [← List.append_assoc, procLines_concat_ws hc, ih hw']

theorem procLines_rstrip (s : Str) : procLines (rstrip s) = procLines s := by
  obtain ⟨w, hw, hws⟩ := rstrip_spec s
  conv_rhs => rw [hw]
  rw [procLines_append_all_ws hws]

theorem procLines_strip (s : Str) : procLines (strip s) = procLines s := by
  unfold strip
  rw [procLines_lstrip, procLines_rstrip]

/-! ## Lemmas: the normal form produced by normalize_text -/

theorem goodLine_nil : goodLine [] := by
  refine ⟨by simp, by simp [noDoubleB], rfl⟩

theorem goodLine_no_nl {m : Str} (h : goodLine m) : '\n' ∉ m := by
  intro hm
  have := h.1 '\n' hm (by simp [pyWS])
  simp at this

theorem goodLine_no_cr {m : Str} (h : goodLine m) : '\r' ∉ m := by
  intro hm
  have := h.1 '\r' hm (by simp [pyWS])
  simp at this

theorem noDoubleB_append_left {a b : Str} (h : noDoubleB (a ++ b) = true) :
    noDoubleB a = true := by
  induction a with
  | nil => simp [noDoubleB]
  | cons x xs ih =>
    rw [List.cons_append, noDoubleB_cons_iff] at h
    rw [noDoubleB_cons_iff]
    refine ⟨ih h.1, ?_⟩
    rintro ⟨rfl, hh⟩
    apply h.2
    refine ⟨rfl, ?_⟩
    cases xs with
    | nil => simp at hh
    | cons y ys => simpa using hh

theorem goodLine_f (l : Str) : goodLine (rstrip (collapseWS l)) := by
  obtain ⟨w, hw, -⟩ := rstrip_spec (collapseWS l)
  refine ⟨?_, ?_, rstrip_idem _⟩
  · intro c hc hws
    have hcc : c ∈ collapseWS l := by
      rw [hw]; exact List.mem_append_left _ hc
    rcases mem_collapseWS c hcc with h1 | ⟨-, h2⟩
    · exact h1
    · rw [hws] at h2; simp at h2
  · apply noDoubleB_append_left (b := w)
    rw [← hw]
    exact noDoubleB_collapse l

theorem rstrip_append (x y : Str) :
    rstrip (x ++ y) = if rstrip y = [] then rstrip x else x ++ rstrip y := by
  unfold rstrip
  rw [List.reverse_append, List.dropWhile_append]
  by_cases he : (y.reverse.dropWhile pyWS).isEmpty
  · rw [if_pos he]
    rw [List.isEmpty_iff] at he
    rw [if_pos (by rw [he]; rfl)]
  · rw [if_neg he]
    rw [List.isEmpty_iff] at he
    rw [if_neg (by simpa using he)]
    rw [List.reverse_append, List.reverse_reverse]

theorem lstrip_append_of_ne_nil {x : Str} (y : Str) (h : lstrip x ≠ []) :
    lstrip (x ++ y) = lstrip x ++ y := by
  unfold lstrip at h ⊢
  rw [List.dropWhile_append, if_neg (by simpa using h)]

theorem rdropE_sub {ms : List Str} : ∀ m ∈ rdropE ms, m ∈ ms := by
  induction ms with
  | nil => simp [rdropE]
  | cons a rest ih =>
    intro m hm
    simp only [rdropE] at hm
    cases hr : rdropE rest with
    | nil =>
      rw [hr] at hm
      by_cases ha : a = []
      · simp [ha] at hm
      · simp [ha] at hm
        simp [hm]
    | cons r0 rs =>
      rw [hr] at hm
      rcases List.mem_cons.mp hm with rfl | hm'
      · exact List.mem_cons_self _ _
      · exact List.mem_cons_of_mem a (ih m (hr ▸ hm'))

theorem rdropE_getLast_ne_nil {ms : List Str} :
    ∀ l, (rdropE ms).getLast? = some l → l ≠ [] := by
  induction ms with
  | nil => simp [rdropE]
  | cons a rest ih =>
    intro l hl
    simp only [rdropE] at hl
    cases hr : rdropE rest with
    | nil =>
      rw [hr] at hl
      by_cases ha : a = []
      · simp [ha] at hl
      · simp [ha] at hl
        rw [← hl]; exact ha
    | cons r0 rs =>
      rw [hr] at hl
      rw [List.getLast?_cons_cons] at hl
      exact ih l (hr ▸ hl)

theorem joinNL_ne_nil {ls : List Str} (h1 : ls ≠ [])
    (h2 : ∀ l, ls.getLast? = some l → l ≠ []) : joinNL ls ≠ [] := by
  cases ls with
  | nil => exact absurd rfl h1
  | cons l rest =>
    cases rest with
    | nil =>
      have := h2 l (by simp)
      simpa [joinNL] using this
    | cons l2 rest' => simp [joinNL]

theorem rdropE_cons_eq_nil {a : Str} {rest : List Str} (h : rdropE rest = []) :
    rdropE (a :: rest) = if a = [] then [] else [a] := by
  rw [show rdropE (a :: rest) =
    (match rdropE rest with
     | [] => if a = [] then [] else [a]
     | r => a :: r) from rfl, h]

theorem rdropE_cons_eq_cons {a r0 : Str} {rest rs : List Str}
    (h : rdropE rest = r0 :: rs) : rdropE (a :: rest) = a :: r0 :: rs := by
  rw [show rdropE (a :: rest) =
    (match rdropE rest with
     | [] => if a = [] then [] else [a]
     | r => a :: r) from rfl, h]

theorem rstrip_joinNL {ms : List Str} (h : ∀ m ∈ ms, rstrip m = m) :
    rstrip (joinNL ms) = joinNL (rdropE ms) := by
  induction ms with
  | nil => simp [joinNL, rdropE, rstrip]
  | cons m rest ih =>
    have hm := h m (List.mem_cons_self m rest)
    have ihr := ih (fun x hx => h x (List.mem_cons_of_mem m hx))
    cases rest with
    | nil =>
      simp only [joinNL, rdropE]
      by_cases hmn : m = []
      · simp [hmn, joinNL, rstrip]
      · simp [hmn, joinNL, hm]
    | cons r1 rs =>
      rw [joinNL_cons_of_ne_nil (by simp)]
      cases hr : rdropE (r1 :: rs) with
      | nil =>
        rw [hr] at ihr
        simp only [joinNL] at ihr
        have hy : rstrip ('\n' :: joinNL (r1 :: rs)) = [] := by
          rw [show ('\n' :: joinNL (r1 :: rs) : Str) = ['\n'] ++ joinNL (r1 :: rs) from rfl,
            rstrip_append, if_pos ihr]
          decide
        rw [rstrip_append, if_pos hy, hm, rdropE_cons_eq_nil hr]
        by_cases hmn : m = []
        · simp [hmn, joinNL]
        · simp [hmn, joinNL]
      | cons d0 ds =>
        rw [hr] at ihr
        have hne : joinNL (d0 :: ds) ≠ [] := by
          apply joinNL_ne_nil (by simp)
          intro l hl
          exact rdropE_getLast_ne_nil l (by rw [hr]; exact hl)
        have hy : rstrip ('\n' :: joinNL (r1 :: rs)) = '\n' :: joinNL (d0 :: ds) := by
          rw [show ('\n' :: joinNL (r1 :: rs) : Str) = ['\n'] ++ joinNL (r1 :: rs) from rfl,
            rstrip_append, if_neg (by rw [ihr]; exact hne), ihr, List.singleton_append]
        rw [rstrip_append, if_neg (by rw [hy]; simp), hy, rdropE_cons_eq_cons hr]
        rw [show joinNL (m :: d0 :: ds) = m ++ '\n' :: joinNL (d0 :: ds) from
          joinNL_cons_of_ne_nil (by simp)]

theorem goodLine_lstrip {m : Str} (h : goodLine m) :
    goodLine (lstrip m) ∧ (m ≠ [] → lstrip m ≠ []) := by
  cases m with
  | nil => exact ⟨goodLine_nil, fun hc => absurd rfl hc⟩
  | cons c m2 =>
    by_cases hc : pyWS c
    · have hcs : c = ' ' := h.1 c (List.mem_cons_self c m2) hc
      subst hcs
      rw [lstrip_cons_ws hc]
      cases m2 with
      | nil => exact absurd h.2.2 (by decide)
      | cons d m3 =>
        have hd : d ≠ ' ' := by
          intro hds
          exact (noDoubleB_cons_iff.mp h.2.1).2 ⟨rfl, by simp [hds]⟩
        have hdws : pyWS d = false := by
          cases hws : pyWS d with
          | false => rfl
          | true =>
            exact absurd (h.1 d (List.mem_cons_of_mem _ (List.mem_cons_self d m3)) hws) hd
        have hfix : lstrip (d :: m3) = d :: m3 := by
          apply lstrip_eq_self
          intro e he
          simp only [List.head?_cons, Option.some.injEq] at he
          rw [← he]
          exact hdws
        rw [hfix]
        refine ⟨⟨?_, ?_, ?_⟩, fun _ => by simp⟩
        · intro e he hews
          exact h.1 e (List.mem_cons_of_mem _ he) hews
        · exact (noDoubleB_cons_iff.mp h.2.1).1
        · apply rstrip_eq_self
          intro e he
          apply rstrip_getLast_not_ws (s := ' ' :: d :: m3)
          rw [h.2.2, List.getLast?_cons_cons]
          exact he
    · have hfix : lstrip (c :: m2) = c :: m2 := by
        apply lstrip_eq_self
        intro e he
        simp only [List.head?_cons, Option.some.injEq] at he
        rw [← he]
        simpa using hc
      rw [hfix]
      exact ⟨h, fun _ => by simp⟩

theorem lstrip_joinNL_good {ms : List Str} (hg : ∀ m ∈ ms, goodLine m) :
    ∃ ms', lstrip (joinNL ms) = joinNL ms' ∧ ∀ m ∈ ms', goodLine m := by
  induction ms with
  | nil => exact ⟨[], rfl, by simp⟩
  | cons m rest ih =>
    cases rest with
    | nil =>
      obtain ⟨hgl, -⟩ := goodLine_lstrip (hg m (List.mem_cons_self m []))
      refine ⟨[lstrip m], rfl, ?_⟩
      intro x hx
      rw [List.mem_singleton] at hx
      rw [hx]
      exact hgl
    | cons r1 rs =>
      have hrest : ∀ x ∈ r1 :: rs, goodLine x :=
        fun x hx => hg x (List.mem_cons_of_mem m hx)
      rw [joinNL_cons_of_ne_nil (by simp)]
      by_cases hm : m = []
      · subst hm
        rw [List.nil_append, lstrip_cons_ws (by decide)]
        exact ih hrest
      · obtain ⟨hgl, hne⟩ := goodLine_lstrip (hg m (List.mem_cons_self m _))
        rw [lstrip_append_of_ne_nil _ (hne hm)]
        refine ⟨lstrip m :: r1 :: rs, ?_, ?_⟩
        · rw [show joinNL (lstrip m :: r1 :: rs) = lstrip m ++ '\n' :: joinNL (r1 :: rs) from
            joinNL_cons_of_ne_nil (by simp)]
        · intro x hx
          rcases List.mem_cons.mp hx with rfl | hx'
          · exact hgl
          · exact hrest x hx'

theorem strip_joinNL_lines {ms : List Str} (hg : ∀ m ∈ ms, goodLine m) :
    ∀ l ∈ splitLines (strip (joinNL ms)), goodLine l := by
  unfold strip
  rw [rstrip_joinNL (fun m hm => (hg m hm).2.2)]
  obtain ⟨ms', h1, h2⟩ := lstrip_joinNL_good (fun m hm => hg m (rdropE_sub m hm))
  rw [h1]
  by_cases hms' : ms' = []
  · subst hms'
    intro l hl
    simp only [joinNL, splitLines, List.mem_singleton] at hl
    rw [hl]
    exact goodLine_nil
  · rw [splitLines_joinNL (fun l hl => goodLine_no_nl (h2 l hl)) hms']
    exact h2

theorem normalize_lines_good (x : Option Str) :
    ∀ l ∈ splitLines (normalize_text x), goodLine l := by
  cases x with
  | none =>
    intro l hl
    simp only [normalize_text, splitLines, List.mem_singleton] at hl
    rw [hl]
    exact goodLine_nil
  | some s =>
    unfold normalize_text
    apply strip_joinNL_lines
    intro m hm
    rw [List.mem_map] at hm
    obtain ⟨l0, -, rfl⟩ := hm
    exact goodLine_f l0

theorem normalize_strip_fixed (x : Option Str) :
    strip (normalize_text x) = normalize_text x := by
  cases x with
  | none => rfl
  | some s =>
    unfold normalize_text
    rw [strip_idem]

theorem mem_joinNL {ms : List Str} {c : Char} (h : c ∈ joinNL ms) :
    c = '\n' ∨ ∃ m ∈ ms, c ∈ m := by
  induction ms with
  | nil => simp [joinNL] at h
  | cons m rest ih =>
    cases rest with
    | nil =>
      simp only [joinNL] at h
      exact Or.inr ⟨m, List.mem_cons_self m [], h⟩
    | cons r1 rs =>
      rw [joinNL_cons_of_ne_nil (by simp)] at h
      rcases List.mem_append.mp h with h1 | h2
      · exact Or.inr ⟨m, List.mem_cons_self m _, h1⟩
      · rcases List.mem_cons.mp h2 with rfl | h3
        · exact Or.inl rfl
        · rcases ih h3 with hnl | ⟨m', hm', hc'⟩
          · exact Or.inl hnl
          · exact Or.inr ⟨m', List.mem_cons_of_mem m hm', hc'⟩

theorem mem_of_strip {s : Str} {c : Char} (h : c ∈ strip s) : c ∈ s := by
  unfold strip at h
  obtain ⟨w1, hw1, -⟩ := lstrip_spec (rstrip s)
  obtain ⟨w2, hw2, -⟩ := rstrip_spec s
  have h1 : c ∈ rstrip s := by
    rw [hw1]
    exact List.mem_append_right _ h
  rw [hw2]
  exact List.mem_append_left _ h1

theorem normalize_no_cr (x : Option Str) : '\r' ∉ normalize_text x := by
  cases x with
  | none => simp [normalize_text]
  | some s =>
    intro hmem
    unfold normalize_text at hmem
    have h1 := mem_of_strip hmem
    rcases mem_joinNL h1 with hnl | ⟨m, hm, hc⟩
    · simp at hnl
    · rw [List.mem_map] at hm
      obtain ⟨l0, -, rfl⟩ := hm
      exact goodLine_no_cr (goodLine_f l0) hc

theorem decrlf_eq_self {s : Str} (h : '\r' ∉ s) : decrlf s = s := by
  induction s with
  | nil => rfl
  | cons c rest ih =>
    cases rest with
    | nil => rfl
    | cons d rest' =>
      have hc : c ≠ '\r' := fun hcc => h (hcc ▸ List.mem_cons_self c _)
      have hrest : '\r' ∉ d :: rest' := fun hm => h (List.mem_cons_of_mem c hm)
      simp only [decrlf]
      rw [if_neg (by rintro ⟨rfl, -⟩; exact hc rfl)]
      rw [ih hrest]

/-- Claim C6: normalization is idempotent — for every text `x`,
`normalize_text (normalize_text x) = normalize_text x`. -/
theorem C6_normalize_idempotent (x : Option Str) :
    normalize_text (some (normalize_text x)) = normalize_text x := by
  have hg := normalize_lines_good x
  have hmap : (splitLines (normalize_text x)).map (fun l => rstrip (collapseWS l)) =
      splitLines (normalize_text x) := by
    have hcongr : ∀ a ∈ splitLines (normalize_text x),
        (fun l => rstrip (collapseWS l)) a = id a := by
      intro a ha
      have hga := hg a ha
      simp only [id]
      rw [collapse_fixed hga.1 hga.2.1]
      exact hga.2.2
    rw [List.map_congr_left hcongr, List.map_id]
  calc normalize_text (some (normalize_text x))
      = strip (joinNL ((splitLines (decrlf (normalize_text x))).map
          (fun l => rstrip (collapseWS l)))) := rfl
    _ = normalize_text x := by
        rw [decrlf_eq_self (normalize_no_cr x), hmap, joinNL_splitLines,
          normalize_strip_fixed]

/-! ## Lemmas: the try_parse loop -/

theorem scoreOf_range {ln : Str} {d : Nat} (h : scoreOf ln = some d) :
    1 ≤ d ∧ d ≤ 5 := by
  unfold scoreOf at h
  cases hdrop : ln.dropWhile pyWS with
  | nil => rw [hdrop] at h; simp at h
  | cons c rest =>
    rw [hdrop] at h
    have h2 : (if (('1' ≤ c ∧ c ≤ '5') ∧ rest.all pyWS = true) then
        some (c.toNat - '0'.toNat) else none) = some d := h
    by_cases hcond : (('1' ≤ c ∧ c ≤ '5') ∧ rest.all pyWS = true)
    · rw [if_pos hcond] at h2
      simp only [Option.some.injEq] at h2
      obtain ⟨⟨hc1, hc2⟩, -⟩ := hcond
      rw [Char.le_def] at hc1 hc2
      have a1 : (49 : Nat) ≤ c.toNat := hc1
      have a2 : c.toNat ≤ 53 := hc2
      have a0 : ('0' : Char).toNat = 48 := by decide
      rw [← h2, a0]
      omega
    · rw [if_neg hcond] at h2
      simp at h2

theorem sectionScan_range {ls : List Str} :
    ∀ {d : Nat} {e : Str}, sectionScan ls = some (d, e) → 1 ≤ d ∧ d ≤ 5 := by
  induction ls with
  | nil => intro d e h; simp [sectionScan] at h
  | cons ln rest ih =>
    intro d e h
    unfold sectionScan at h
    cases hsc : scoreOf ln with
    | none => rw [hsc] at h; exact ih h
    | some d' =>
      rw [hsc] at h
      simp only [Option.some.injEq, Prod.mk.injEq] at h
      rw [← h.1]
      exact scoreOf_range hsc

theorem extract_range {N h : Str} {s : Nat} {e : Str}
    (hx : extract N h = some (some (s, e))) : 1 ≤ s ∧ s ≤ 5 := by
  unfold extract at hx
  cases hfh : findHeading N h with
  | none => rw [hfh] at hx; simp at hx
  | some idx =>
    rw [hfh] at hx
    have hx2 : (if sectionOf N h idx = [] then some none
        else some (sectionScan (procLines (sectionOf N h idx)))) = some (some (s, e)) := hx
    by_cases hsec : sectionOf N h idx = []
    · rw [if_pos hsec] at hx2; simp at hx2
    · rw [if_neg hsec] at hx2
      simp only [Option.some.injEq] at hx2
      exact sectionScan_range hx2

theorem tpLoop_ok_missing_nil {N : Str} :
    ∀ (hs : List Str) (res : List (Str × Nat × Str)) (mis : List Str)
      (out : Option (List (Str × Nat × Str))) (err : Option Str),
      tpLoop N hs res mis = (true, out, err) → mis = [] := by
  intro hs
  induction hs with
  | nil =>
    intro res mis out err ht
    unfold tpLoop at ht
    by_cases hm : mis = []
    · exact hm
    · rw [if_neg hm] at ht; simp at ht
  | cons h hs ih =>
    intro res mis out err ht
    unfold tpLoop at ht
    cases hx : extract N h with
    | none =>
      rw [hx] at ht
      have := ih _ _ _ _ ht
      simp at this
    | some r =>
      cases r with
      | none => rw [hx] at ht; simp at ht
      | some p => rw [hx] at ht; exact ih _ _ _ _ ht

theorem tpLoop_ok_mem {N : Str} :
    ∀ (hs : List Str) (res : List (Str × Nat × Str)) (mis : List Str)
      (out : List (Str × Nat × Str)),
      tpLoop N hs res mis = (true, some out, none) →
      (∀ p ∈ res, p ∈ out) ∧
      ∀ h ∈ hs, ∃ s e, (h, s, e) ∈ out ∧ extract N h = some (some (s, e)) := by
  intro hs
  induction hs with
  | nil =>
    intro res mis out ht
    unfold tpLoop at ht
    by_cases hm : mis = []
    · rw [if_pos hm] at ht
      simp only [Prod.mk.injEq, Option.some.injEq] at ht
      rw [← ht.2.1]
      exact ⟨fun p hp => hp, by simp⟩
    · rw [if_neg hm] at ht; simp at ht
  | cons h hs ih =>
    intro res mis out ht
    unfold tpLoop at ht
    cases hx : extract N h with
    | none =>
      rw [hx] at ht
      have := tpLoop_ok_missing_nil _ _ _ _ _ ht
      simp at this
    | some r =>
      cases r with
      | none => rw [hx] at ht; simp at ht
      | some p =>
        rw [hx] at ht
        obtain ⟨h1, h2⟩ := ih _ _ _ ht
        constructor
        · intro q hq
          exact h1 q (List.mem_append_left _ hq)
        · intro h' hmem
          rcases List.mem_cons.mp hmem with rfl | hmem'
          · refine ⟨p.1, p.2, h1 (h', p.1, p.2) ?_, ?_⟩
            · apply List.mem_append_right
              simp
            · rw [hx]
          · exact h2 h' hmem'

/-- Claim C1: whenever `try_parse` succeeds, the returned mapping has an
entry for every configured rubric heading, and every entry's score is an
integer in `[1, 5]`; no success omits a heading or carries an
out-of-range score. -/
theorem C1_success_complete (t : Str) (res : List (Str × Nat × Str))
    (hok : try_parse (some t) = (true, some res, none)) :
    ∀ h ∈ headings, ∃ s e, (h, s, e) ∈ res ∧ 1 ≤ s ∧ s ≤ 5 := by
  unfold try_parse at hok
  have hok2 : (if strip t = [] then (false, none, some "empty".toList)
      else tpLoop (normalize_text (some t)) headings [] []) = (true, some res, none) := hok
  by_cases hempty : strip t = []
  · rw [if_pos hempty] at hok2; simp at hok2
  · rw [if_neg hempty] at hok2
    intro h hmem
    obtain ⟨-, h2⟩ := tpLoop_ok_mem headings [] [] res hok2
    obtain ⟨s, e, hin, hx⟩ := h2 h hmem
    exact ⟨s, e, hin, extract_range hx⟩

/-- Claim C8 counterexample: the claim that `normalize_text` removes every
line's leading whitespace entirely, regardless of position, is false —
for the input `"a\n b"` the second output line still begins with a
space. -/
theorem C8_counterexample : ¬ c8LeadingRemovedClaim := by
  intro h
  have := h (some ("a\n b".toList)) (" b".toList) (by decide)
  exact absurd this (by decide)

/-- Claim C8 (amended): within each line `normalize_text` collapses
whitespace runs to single spaces and strips trailing whitespace, but a
line's leading whitespace is only collapsed to a single leading space,
not removed; leading whitespace disappears only through the whole-text
strip (so the first line carries none). -/
theorem C8_amended_normal_form (x : Option Str) :
    (∀ l ∈ splitLines (normalize_text x), goodLine l) ∧
    strip (normalize_text x) = normalize_text x :=
  ⟨normalize_lines_good x, normalize_strip_fixed x⟩

/-- Witness for C8's amended theorem at the counterexample input. -/
theorem C8_amended_witness :
    goodLine (" b".toList) ∧
    strip (normalize_text (some ("a\n b".toList))) =
      normalize_text (some ("a\n b".toList)) :=
  ⟨(C8_amended_normal_form (some ("a\n b".toList))).1 (" b".toList) (by decide),
   (C8_amended_normal_form (some ("a\n b".toList))).2⟩

theorem tpLoop_cons_none {N h : Str} {hs : List Str} {res : List (Str × Nat × Str)}
    {mis : List Str} (hx : extract N h = none) :
    tpLoop N (h :: hs) res mis = tpLoop N hs res (mis ++ [h]) := by
  show (match extract N h with
    | none => tpLoop N hs res (mis ++ [h])
    | some none => (false, none, some ("missing_score_for_".toList ++ h))
    | some (some (sc, ex)) => tpLoop N hs (res ++ [(h, sc, ex)]) mis) =
    tpLoop N hs res (mis ++ [h])
  rw [hx]

theorem tpLoop_cons_scored {N h : Str} {hs : List Str} {res : List (Str × Nat × Str)}
    {mis : List Str} {s : Nat} {e : Str} (hx : extract N h = some (some (s, e))) :
    tpLoop N (h :: hs) res mis = tpLoop N hs (res ++ [(h, s, e)]) mis := by
  show (match extract N h with
    | none => tpLoop N hs res (mis ++ [h])
    | some none => (false, none, some ("missing_score_for_".toList ++ h))
    | some (some (sc, ex)) => tpLoop N hs (res ++ [(h, sc, ex)]) mis) =
    tpLoop N hs (res ++ [(h, s, e)]) mis
  rw [hx]

theorem tpLoop_cons_noscore {N h : Str} {hs : List Str} {res : List (Str × Nat × Str)}
    {mis : List Str} (hx : extract N h = some none) :
    tpLoop N (h :: hs) res mis = (false, none, some ("missing_score_for_".toList ++ h)) := by
  show (match extract N h with
    | none => tpLoop N hs res (mis ++ [h])
    | some none => (false, none, some ("missing_score_for_".toList ++ h))
    | some (some (sc, ex)) => tpLoop N hs (res ++ [(h, sc, ex)]) mis) =
    (false, none, some ("missing_score_for_".toList ++ h))
  rw [hx]

theorem tpLoop_nil_missing {N : Str} {res : List (Str × Nat × Str)} {mis : List Str}
    (h : mis ≠ []) :
    tpLoop N [] res mis = (false, none, some ("missing_sections:".toList ++ joinComma mis)) := by
  unfold tpLoop
  rw [if_neg h]

theorem tpLoop_nil_ok {N : Str} {res : List (Str × Nat × Str)} :
    tpLoop N [] res [] = (true, some res, none) := by
  unfold tpLoop
  rw [if_pos rfl]

theorem scored_eq_true {o : Option (Option (Nat × Str))} (h : scored o = true) :
    ∃ s e, o = some (some (s, e)) := by
  cases o with
  | none => simp [scored] at h
  | some r =>
    cases r with
    | none => simp [scored] at h
    | some p => exact ⟨p.1, p.2, rfl⟩

theorem extract_none_of_find {N h : Str} (hf : findHeading N h = none) :
    extract N h = none := by
  unfold extract
  rw [hf]

theorem try_parse_some_ne {t : Str} (h : strip t ≠ []) :
    try_parse (some t) = tpLoop (normalize_text (some t)) headings [] [] := by
  unfold try_parse
  exact if_neg h

theorem tpLoop_through_pre {N : Str} :
    ∀ (pre : List Str) (res : List (Str × Nat × Str)) (mis : List Str),
      (∀ x ∈ pre, noScoreExit (extract N x) = true) → ∀ hs : List Str,
      ∃ res' mis', tpLoop N (pre ++ hs) res mis = tpLoop N hs res' mis' := by
  intro pre
  induction pre with
  | nil => exact fun res mis _ hs => ⟨res, mis, rfl⟩
  | cons p pre' ih =>
    intro res mis hok hs
    have hp := hok p (List.mem_cons_self p pre')
    have hrest : ∀ x ∈ pre', noScoreExit (extract N x) = true :=
      fun x hx => hok x (List.mem_cons_of_mem p hx)
    cases hx : extract N p with
    | none =>
      rw [List.cons_append, tpLoop_cons_none hx]
      exact ih res (mis ++ [p]) hrest hs
    | some r =>
      cases r with
      | none => rw [hx] at hp; simp [noScoreExit] at hp
      | some q =>
        obtain ⟨qs, qe⟩ := q
        rw [List.cons_append, tpLoop_cons_scored hx]
        exact ih (res ++ [(p, qs, qe)]) mis hrest hs

/-- Claim C3: if every configured heading except one is found, each found
heading's section yielding a valid score, then `try_parse` fails with the
reason `missing_sections:` naming exactly the absent heading. -/
theorem C3_missing_heading (t h0 : Str) (hne : strip t ≠ [])
    (hmem : h0 ∈ headings)
    (hnf : findHeading (normalize_text (some t)) h0 = none)
    (hothers : ∀ h ∈ headings, h ≠ h0 →
      scored (extract (normalize_text (some t)) h) = true) :
    try_parse (some t) = (false, none, some ("missing_sections:".toList ++ h0)) := by
  rw [try_parse_some_ne hne]
  have hx0 := extract_none_of_find hnf
  simp only [headings, List.mem_cons, List.not_mem_nil, or_false] at hmem
  rcases hmem with rfl | rfl | rfl | rfl
  all_goals {
    first
    | (obtain ⟨s2, e2, hp2⟩ := scored_eq_true (hothers "Originalità".toList
        (by simp [headings]) (by decide))
       obtain ⟨s3, e3, hp3⟩ := scored_eq_true (hothers "Impatto emotivo".toList
        (by simp [headings]) (by decide))
       obtain ⟨s4, e4, hp4⟩ := scored_eq_true (hothers "Azione".toList
        (by simp [headings]) (by decide))
       rw [show headings = "Coerenza narrativa".toList :: "Originalità".toList ::
         "Impatto emotivo".toList :: "Azione".toList :: [] from rfl]
       rw [tpLoop_cons_none hx0, tpLoop_cons_scored hp2, tpLoop_cons_scored hp3,
         tpLoop_cons_scored hp4, tpLoop_nil_missing (by simp)]
       simp [joinComma])
    | (obtain ⟨s1, e1, hp1⟩ := scored_eq_true (hothers "Coerenza narrativa".toList
        (by simp [headings]) (by decide))
       obtain ⟨s3, e3, hp3⟩ := scored_eq_true (hothers "Impatto emotivo".toList
        (by simp [headings]) (by decide))
       obtain ⟨s4, e4, hp4⟩ := scored_eq_true (hothers "Azione".toList
        (by simp [headings]) (by decide))
       rw [show headings = "Coerenza narrativa".toList :: "Originalità".toList ::
         "Impatto emotivo".toList :: "Azione".toList :: [] from rfl]
       rw [tpLoop_cons_scored hp1, tpLoop_cons_none hx0, tpLoop_cons_scored hp3,
         tpLoop_cons_scored hp4, tpLoop_nil_missing (by simp)]
       simp [joinComma])
    | (obtain ⟨s1, e1, hp1⟩ := scored_eq_true (hothers "Coerenza narrativa".toList
        (by simp [headings]) (by decide))
       obtain ⟨s2, e2, hp2⟩ := scored_eq_true (hothers "Originalità".toList
        (by simp [headings]) (by decide))
       obtain ⟨s4, e4, hp4⟩ := scored_eq_true (hothers "Azione".toList
        (by simp [headings]) (by decide))
       rw [show headings = "Coerenza narrativa".toList :: "Originalità".toList ::
         "Impatto emotivo".toList :: "Azione".toList :: [] from rfl]
       rw [tpLoop_cons_scored hp1, tpLoop_cons_scored hp2, tpLoop_cons_none hx0,
         tpLoop_cons_scored hp4, tpLoop_nil_missing (by simp)]
       simp [joinComma])
    | (obtain ⟨s1, e1, hp1⟩ := scored_eq_true (hothers "Coerenza narrativa".toList
        (by simp [headings]) (by decide))
       obtain ⟨s2, e2, hp2⟩ := scored_eq_true (hothers "Originalità".toList
        (by simp [headings]) (by decide))
       obtain ⟨s3, e3, hp3⟩ := scored_eq_true (hothers "Impatto emotivo".toList
        (by simp [headings]) (by decide))
       rw [show headings = "Coerenza narrativa".toList :: "Originalità".toList ::
         "Impatto emotivo".toList :: "Azione".toList :: [] from rfl]
       rw [tpLoop_cons_scored hp1, tpLoop_cons_scored hp2, tpLoop_cons_scored hp3,
         tpLoop_cons_none hx0, tpLoop_nil_missing (by simp)]
       simp [joinComma])
  }

/-- Witness for C3: the text carries valid sections for all headings except
`Azione`, and `try_parse` reports exactly that heading as missing. -/
theorem C3_witness :
    try_parse (some ("Coerenza narrativa\n1\nOriginalità\n1\nImpatto emotivo\n1".toList)) =
      (false, none, some ("missing_sections:".toList ++ "Azione".toList)) :=
  C3_missing_heading ("Coerenza narrativa\n1\nOriginalità\n1\nImpatto emotivo\n1".toList)
    ("Azione".toList) (by decide) (by decide) (by decide) (by decide)

/-- Claim C10: when a found heading's section has no valid score line, the
loop returns `missing_score_for_` for the first such heading in
configuration order immediately — even when another configured heading is
entirely missing — so score-parse failure takes precedence over the
`missing_sections:` report. -/
theorem C10_score_failure_precedence (t hstar : Str) (pre rest : List Str)
    (hne : strip t ≠ [])
    (hsplit : headings = pre ++ hstar :: rest)
    (hstarx : extract (normalize_text (some t)) hstar = some none)
    (hpre : ∀ h ∈ pre, noScoreExit (extract (normalize_text (some t)) h) = true)
    (hmiss : ∃ h ∈ headings, extract (normalize_text (some t)) h = none) :
    try_parse (some t) = (false, none, some ("missing_score_for_".toList ++ hstar)) := by
  rw [try_parse_some_ne hne, hsplit]
  obtain ⟨res', mis', hthrough⟩ := tpLoop_through_pre pre [] [] hpre (hstar :: rest)
  rw [hthrough, tpLoop_cons_noscore hstarx]

/-- Witness for C10: `Coerenza narrativa` is missing entirely while
`Originalità` is present without a score line; the reported reason is the
score failure. -/
theorem C10_witness :
    try_parse (some ("Originalità\nciao\nImpatto emotivo\n1\nAzione\n1".toList)) =
      (false, none, some ("missing_score_for_".toList ++ "Originalità".toList)) :=
  C10_score_failure_precedence ("Originalità\nciao\nImpatto emotivo\n1\nAzione\n1".toList)
    ("Originalità".toList) ["Coerenza narrativa".toList]
    ["Impatto emotivo".toList, "Azione".toList]
    (by decide) (by decide) (by decide) (by decide) (by decide)

theorem digit_not_ws {c : Char} (h1 : '1' ≤ c) (h2 : c ≤ '5') : pyWS c = false := by
  by_contra hws
  rw [Bool.not_eq_false] at hws
  simp only [pyWS, Bool.or_eq_true, decide_eq_true_eq] at hws
  rcases hws with
    (((((((((((((((((((((((((((rfl|rfl)|rfl)|rfl)|rfl)|rfl)|rfl)|rfl)|rfl)|rfl)|rfl)|rfl)|rfl)|rfl)|rfl)|rfl)|rfl)|rfl)|rfl)|rfl)|rfl)|rfl)|rfl)|rfl)|rfl)|rfl)|rfl)|rfl)|rfl <;>
    revert h1 h2 <;> decide

theorem dropWhile_append_all {p : Char → Bool} {u : Str} (hu : ∀ a ∈ u, p a = true)
    (w : Str) : List.dropWhile p (u ++ w) = List.dropWhile p w := by
  induction u with
  | nil => rfl
  | cons a u' ih =>
    rw [List.cons_append, List.dropWhile_cons, if_pos (hu a (List.mem_cons_self a u'))]
    exact ih (fun x hx => hu x (List.mem_cons_of_mem a hx))

/-- Claim C4: a section line reading `0` or `6` is not accepted as a score
line (the heading then fails with `missing_score_for_`), and a line is
accepted as a score exactly when it is a single digit `1`-`5` optionally
surrounded by whitespace. -/
theorem C4_score_boundary :
    (scoreOf ("0".toList) = none ∧ scoreOf ("6".toList) = none) ∧
    (∀ (ln : Str) (d : Nat), scoreOf ln = some d ↔
      ∃ u c v, ln = u ++ c :: v ∧ (∀ a ∈ u, pyWS a = true) ∧ (∀ a ∈ v, pyWS a = true) ∧
        '1' ≤ c ∧ c ≤ '5' ∧ d = c.toNat - '0'.toNat) ∧
    (∀ (t hstar : Str) (pre rest : List Str) (idx : Nat) (c : Char),
      strip t ≠ [] → headings = pre ++ hstar :: rest →
      (∀ h ∈ pre, noScoreExit (extract (normalize_text (some t)) h) = true) →
      findHeading (normalize_text (some t)) hstar = some idx →
      procLines (sectionOf (normalize_text (some t)) hstar idx) = [[c]] →
      (c = '0' ∨ c = '6') →
      try_parse (some t) = (false, none, some ("missing_score_for_".toList ++ hstar))) := by
  refine ⟨⟨by decide, by decide⟩, ?_, ?_⟩
  · intro ln d
    constructor
    · intro hsc
      unfold scoreOf at hsc
      cases hdrop : ln.dropWhile pyWS with
      | nil => rw [hdrop] at hsc; simp at hsc
      | cons c rest =>
        rw [hdrop] at hsc
        have hsc2 : (if (('1' ≤ c ∧ c ≤ '5') ∧ rest.all pyWS = true) then
            some (c.toNat - '0'.toNat) else none) = some d := hsc
        by_cases hcond : (('1' ≤ c ∧ c ≤ '5') ∧ rest.all pyWS = true)
        · rw [if_pos hcond] at hsc2
          simp only [Option.some.injEq] at hsc2
          refine ⟨ln.takeWhile pyWS, c, rest, ?_, ?_, ?_, hcond.1.1, hcond.1.2, hsc2.symm⟩
          · conv_lhs => rw [← List.takeWhile_append_dropWhile pyWS ln]
            rw [hdrop]
          · exact fun a ha => List.mem_takeWhile_imp ha
          · exact fun a ha => List.all_eq_true.mp hcond.2 a ha
        · rw [if_neg hcond] at hsc2
          simp at hsc2
    · rintro ⟨u, c, v, rfl, hu, hv, h1, h2, rfl⟩
      have hdropv : List.dropWhile pyWS (u ++ c :: v) = c :: v := by
        rw [dropWhile_append_all hu, List.dropWhile_cons, digit_not_ws h1 h2]
        simp
      show (match List.dropWhile pyWS (u ++ c :: v) with
        | [] => none
        | c :: rest =>
          if (('1' ≤ c ∧ c ≤ '5') ∧ rest.all pyWS = true) then
            some (c.toNat - '0'.toNat) else none) = some (c.toNat - '0'.toNat)
      rw [hdropv]
      show (if (('1' ≤ c ∧ c ≤ '5') ∧ v.all pyWS = true) then
        some (c.toNat - '0'.toNat) else none) = some (c.toNat - '0'.toNat)
      rw [if_pos ⟨⟨h1, h2⟩, List.all_eq_true.mpr hv⟩]
  · intro t hstar pre rest idx c hne hsplit hpre hfind hlines hc
    have hscan : sectionScan (procLines (sectionOf (normalize_text (some t)) hstar idx)) =
        none := by
      rw [hlines]
      rcases hc with rfl | rfl <;> decide
    have hsecne : sectionOf (normalize_text (some t)) hstar idx ≠ [] := by
      intro hnil
      rw [hnil] at hlines
      simp [procLines, splitLines, strip, lstrip, rstrip] at hlines
    have hx : extract (normalize_text (some t)) hstar = some none := by
      unfold extract
      rw [hfind]
      show (if sectionOf (normalize_text (some t)) hstar idx = [] then some none
        else some (sectionScan (procLines (sectionOf (normalize_text (some t)) hstar idx)))) =
        some none
      rw [if_neg hsecne, hscan]
    rw [try_parse_some_ne hne, hsplit]
    obtain ⟨res', mis', hthrough⟩ := tpLoop_through_pre pre [] [] hpre (hstar :: rest)
    rw [hthrough, tpLoop_cons_noscore hx]

/-- Witness for C4: a `Coerenza narrativa` section whose only line is `0`
makes `try_parse` fail with `missing_score_for_Coerenza narrativa`. -/
theorem C4_witness :
    try_parse (some ("Coerenza narrativa\n0\nOriginalità\n1\nImpatto emotivo\n1\nAzione\n1".toList)) =
      (false, none, some ("missing_score_for_".toList ++ "Coerenza narrativa".toList)) :=
  C4_score_boundary.2.2
    ("Coerenza narrativa\n0\nOriginalità\n1\nImpatto emotivo\n1\nAzione\n1".toList)
    ("Coerenza narrativa".toList) []
    ["Originalità".toList, "Impatto emotivo".toList, "Azione".toList] 0 '0'
    (by decide) (by decide) (by decide) (by decide) (by decide) (Or.inl rfl)

/-- Claim C5: the section scan takes the first line that is exactly a single
digit 1-5 as the score and joins the lines strictly after it with single
spaces as the explanation, discarding lines before the score line; in
particular the documented four-line example yields score 4 and
explanation "Bella prova narrativa. Continua così.". -/
theorem C5_first_score_line :
    (∀ (ls : List Str) (i : Nat) (li : Str) (d : Nat),
      ls[i]? = some li → scoreOf li = some d →
      (∀ l ∈ ls.take i, scoreOf l = none) →
      sectionScan ls = some (d, strip (joinSp (ls.drop (i + 1))))) ∧
    sectionScan ["Un breve commento introduttivo.".toList, "4".toList,
      "Bella prova narrativa.".toList, "Continua così.".toList] =
      some (4, "Bella prova narrativa. Continua così.".toList) := by
  constructor
  · intro ls
    induction ls with
    | nil => intro i li d hget; simp at hget
    | cons ln rest ih =>
      intro i li d hget hsc hbefore
      cases i with
      | zero =>
        simp only [List.getElem?_cons_zero, Option.some.injEq] at hget
        subst hget
        unfold sectionScan
        rw [hsc]
        rfl
      | succ i' =>
        have hln : scoreOf ln = none := by
          apply hbefore
          rw [List.take_succ_cons]
          exact List.mem_cons_self _ _
        unfold sectionScan
        rw [hln]
        simp only [List.getElem?_cons_succ] at hget
        have hbefore' : ∀ l ∈ rest.take i', scoreOf l = none := by
          intro l hl
          apply hbefore
          rw [List.take_succ_cons]
          exact List.mem_cons_of_mem ln hl
        rw [ih i' li d hget hsc hbefore']
        rfl
  · decide

/-- Witness for C5 at the documented example: the first matching line is at
index 1, the two preceding and following lines behave as claimed. -/
theorem C5_witness :
    sectionScan ["Un breve commento introduttivo.".toList, "4".toList,
      "Bella prova narrativa.".toList, "Continua così.".toList] =
      some (4, strip (joinSp (["Un breve commento introduttivo.".toList, "4".toList,
        "Bella prova narrativa.".toList, "Continua così.".toList].drop 2))) :=
  C5_first_score_line.1
    ["Un breve commento introduttivo.".toList, "4".toList,
      "Bella prova narrativa.".toList, "Continua così.".toList]
    1 ("4".toList) 4 (by decide) (by decide) (by decide)

/-- Witness for C1 at a fully valid evaluation text, instantiated at the
heading `Azione`. -/
theorem C1_witness :
    ∃ s e,
      ("Azione".toList, s, e) ∈ [("Coerenza narrativa".toList, 1, "bene".toList),
        ("Originalità".toList, 2, "".toList),
        ("Impatto emotivo".toList, 3, "".toList),
        ("Azione".toList, 4, "ok".toList)] ∧ 1 ≤ s ∧ s ≤ 5 :=
  C1_success_complete
    ("Coerenza narrativa\n1\nbene\nOriginalità\n2\nImpatto emotivo\n3\nAzione\n4\nok".toList)
    [("Coerenza narrativa".toList, 1, "bene".toList),
      ("Originalità".toList, 2, "".toList),
      ("Impatto emotivo".toList, 3, "".toList),
      ("Azione".toList, 4, "ok".toList)]
    (by rfl) ("Azione".toList) (by decide)

/-! ## Lemmas: the envelope unwrapper -/

theorem unwrap_raw_some_parsed {s : Str} {obj : JVal} (hs : s ≠ []) :
    unwrap_raw (some s) (some obj) = unwrapVal s obj := by
  show (if s = [] then PyVal.pstr s
    else match some obj with
      | none => PyVal.pstr s
      | some obj => unwrapVal s obj) = unwrapVal s obj
  rw [if_neg hs]

theorem unwrapVal_arr_ok_some {s : Str} {els : List JVal} {v : JVal}
    (h : listScan els = Except.ok (some v)) :
    unwrapVal s (JVal.jarr els) = toPy v := by
  show (match listScan els with
    | Except.ok (some v) => toPy v
    | _ => PyVal.pstr s) = toPy v
  rw [h]

theorem unwrapVal_arr_ok_none {s : Str} {els : List JVal}
    (h : listScan els = Except.ok none) :
    unwrapVal s (JVal.jarr els) = PyVal.pstr s := by
  show (match listScan els with
    | Except.ok (some v) => toPy v
    | _ => PyVal.pstr s) = PyVal.pstr s
  rw [h]

theorem listScan_spec {els : List JVal}
    (hroles : ∀ el ∈ els, ∀ f, el = JVal.jobj f →
      (oget f "role".toList = none ∨ ∃ r, oget f "role".toList = some (JVal.jstr r))) :
    (∀ pre el rest, els = pre ++ el :: rest →
      (∀ e ∈ pre, ¬ truthyAssistant e) → truthyAssistant el →
      ∃ c, contentOf el = some c ∧ listScan els = Except.ok (some c)) ∧
    ((∀ e ∈ els, ¬ truthyAssistant e) → listScan els = Except.ok none) := by
  induction els with
  | nil =>
    refine ⟨?_, fun _ => rfl⟩
    intro pre el rest heq
    exact absurd heq.symm (by simp)
  | cons el0 els' ih =>
    have hroles' : ∀ el ∈ els', ∀ f, el = JVal.jobj f →
        (oget f "role".toList = none ∨ ∃ r, oget f "role".toList = some (JVal.jstr r)) :=
      fun el hel => hroles el (List.mem_cons_of_mem el0 hel)
    have ih' := ih hroles'
    have hstep : ¬ truthyAssistant el0 → listScan (el0 :: els') = listScan els' := by
      intro hnta
      cases hel0 : el0 with
      | jobj f =>
        show (match oget f "role".toList with
          | none => listScan els'
          | some (JVal.jstr r) =>
            if lowerS r = "assistant".toList ∧ truthyO (oget f "content".toList) then
              Except.ok (oget f "content".toList)
            else listScan els'
          | some _ => Except.error ()) = listScan els'
        rcases hroles el0 (List.mem_cons_self el0 els') f hel0 with hnone | ⟨r, hr⟩
        · rw [hnone]
        · rw [hr]
          show (if lowerS r = "assistant".toList ∧ truthyO (oget f "content".toList) = true then
            Except.ok (oget f "content".toList) else listScan els') = listScan els'
          rw [if_neg]
          rintro ⟨hlow, htruthy⟩
          exact hnta ⟨f, r, hel0, hr, hlow, htruthy⟩
      | jnull => rfl
      | jbool b => rfl
      | jnum q => rfl
      | jstr s0 => rfl
      | jarr a => rfl
    constructor
    · intro pre el rest heq hpre hel
      cases pre with
      | nil =>
        simp only [List.nil_append, List.cons.injEq] at heq
        obtain ⟨rfl, rfl⟩ := heq
        obtain ⟨f, r, rfl, hr, hlow, htruthy⟩ := hel
        cases hcontent : oget f "content".toList with
        | none => rw [hcontent] at htruthy; simp [truthyO] at htruthy
        | some c =>
          refine ⟨c, hcontent, ?_⟩
          show (match oget f "role".toList with
            | none => listScan els'
            | some (JVal.jstr r) =>
              if lowerS r = "assistant".toList ∧ truthyO (oget f "content".toList) then
                Except.ok (oget f "content".toList)
              else listScan els'
            | some _ => Except.error ()) = Except.ok (some c)
          rw [hr]
          show (if lowerS r = "assistant".toList ∧ truthyO (oget f "content".toList) = true then
            Except.ok (oget f "content".toList) else listScan els') = Except.ok (some c)
          rw [if_pos ⟨hlow, htruthy⟩, hcontent]
      | cons p0 pre' =>
        simp only [List.cons_append, List.cons.injEq] at heq
        have hnta0 : ¬ truthyAssistant el0 := by
          rw [heq.1]
          exact hpre p0 (List.mem_cons_self p0 pre')
        rw [hstep hnta0]
        exact ih'.1 pre' el rest heq.2
          (fun e he => hpre e (List.mem_cons_of_mem p0 he)) hel
    · intro hall
      rw [hstep (hall el0 (List.mem_cons_self el0 els'))]
      exact ih'.2 (fun e he => hall e (List.mem_cons_of_mem el0 he))

/-- Claim C2 (code defect): on a well-formed JSON payload whose `content`
field is a non-empty object, the unwrapped value is a truthy non-string,
and `try_parse` raises `AttributeError` at `text.strip()` instead of
returning a tagged reason. -/
theorem C2_pipeline_raises :
    unwrap_raw (some ("\x7b\"role\": \"u\", \"content\": \x7b\"a\": 1\x7d\x7d".toList))
      (some (JVal.jobj [("role".toList, JVal.jstr ("u".toList)),
        ("content".toList, JVal.jobj [("a".toList, JVal.jnum 1)])])) =
      PyVal.pother (JVal.jobj [("a".toList, JVal.jnum 1)]) ∧
    pipeline (some ("\x7b\"role\": \"u\", \"content\": \x7b\"a\": 1\x7d\x7d".toList))
      (some (JVal.jobj [("role".toList, JVal.jstr ("u".toList)),
        ("content".toList, JVal.jobj [("a".toList, JVal.jnum 1)])])) =
      Except.error () :=
  ⟨rfl, rfl⟩

/-- Claim C9 counterexample: for the payload
`[{"role": "assistant", "content": ""}]` the first (and only) element has
role `assistant` and content `""`, yet `unwrap_raw` does not return that
content string — it skips the element because its content is falsy and
returns the payload unchanged. -/
theorem C9_counterexample : ¬ c9FirstAssistantClaim := by
  intro h
  have h2 := h.1 ("[\x7b\"role\": \"assistant\", \"content\": \"\"\x7d]".toList) [] []
    [("role".toList, JVal.jstr ("assistant".toList)), ("content".toList, JVal.jstr [])]
    [] (by decide) (by simp)
    ⟨[("role".toList, JVal.jstr ("assistant".toList)), ("content".toList, JVal.jstr [])],
      "assistant".toList, rfl, by rfl, by rfl⟩
    (by rfl)
  have h3 : unwrap_raw (some ("[\x7b\"role\": \"assistant\", \"content\": \"\"\x7d]".toList))
      (some (JVal.jarr ([] ++ JVal.jobj [("role".toList, JVal.jstr ("assistant".toList)),
        ("content".toList, JVal.jstr [])] :: []))) =
      PyVal.pstr ("[\x7b\"role\": \"assistant\", \"content\": \"\"\x7d]".toList) := by rfl
  rw [h2] at h3
  have h4 := PyVal.pstr.inj h3
  exact absurd h4.symm (by decide)

/-- Claim C9 (amended): on a list payload whose elements' `role` fields are
strings when present, `unwrap_raw` returns the content of the first
element whose role lowercases to `assistant` and whose content is present
and truthy; elements with missing or empty content are skipped, and when
no such element exists the payload is returned unchanged. -/
theorem C9_amended_first_truthy_assistant (s : Str) (els : List JVal) (hs : s ≠ [])
    (hroles : ∀ el ∈ els, ∀ f, el = JVal.jobj f →
      (oget f "role".toList = none ∨ ∃ r, oget f "role".toList = some (JVal.jstr r))) :
    (∀ pre el rest, els = pre ++ el :: rest →
      (∀ e ∈ pre, ¬ truthyAssistant e) → truthyAssistant el →
      ∃ c, contentOf el = some c ∧
        unwrap_raw (some s) (some (JVal.jarr els)) = toPy c) ∧
    ((∀ e ∈ els, ¬ truthyAssistant e) →
      unwrap_raw (some s) (some (JVal.jarr els)) = PyVal.pstr s) := by
  have hls := listScan_spec hroles
  constructor
  · intro pre el rest heq hpre hel
    obtain ⟨c, hc, hscan⟩ := hls.1 pre el rest heq hpre hel
    exact ⟨c, hc, by rw [unwrap_raw_some_parsed hs, unwrapVal_arr_ok_some hscan]⟩
  · intro hall
    rw [unwrap_raw_some_parsed hs, unwrapVal_arr_ok_none (hls.2 hall)]

/-- Witness for C9's amended theorem: the assistant message with non-empty
content `"ciao"` is unwrapped to that content. -/
theorem C9_amended_witness :
    unwrap_raw (some ("[\x7b\"role\": \"assistant\", \"content\": \"ciao\"\x7d]".toList))
      (some (JVal.jarr [JVal.jobj [("role".toList, JVal.jstr ("assistant".toList)),
        ("content".toList, JVal.jstr ("ciao".toList))]])) =
      PyVal.pstr ("ciao".toList) := by
  have happ := (C9_amended_first_truthy_assistant
    ("[\x7b\"role\": \"assistant\", \"content\": \"ciao\"\x7d]".toList)
    [JVal.jobj [("role".toList, JVal.jstr ("assistant".toList)),
      ("content".toList, JVal.jstr ("ciao".toList))]]
    (by decide)
    (by
      intro el hel f hf
      rw [List.mem_singleton] at hel
      rw [hel] at hf
      have hfq := JVal.jobj.inj hf
      rw [← hfq]
      exact Or.inr ⟨"assistant".toList, rfl⟩)).1
    [] (JVal.jobj [("role".toList, JVal.jstr ("assistant".toList)),
      ("content".toList, JVal.jstr ("ciao".toList))]) [] rfl (by simp)
    ⟨[("role".toList, JVal.jstr ("assistant".toList)),
      ("content".toList, JVal.jstr ("ciao".toList))],
      "assistant".toList, rfl, by rfl, by rfl, by rfl⟩
  obtain ⟨c, hc, heq⟩ := happ
  have hcv : c = JVal.jstr ("ciao".toList) := by
    have h0 : contentOf (JVal.jobj [("role".toList, JVal.jstr ("assistant".toList)),
      ("content".toList, JVal.jstr ("ciao".toList))]) =
        some (JVal.jstr ("ciao".toList)) := rfl
    rw [h0] at hc
    exact (Option.some.inj hc).symm
  rw [hcv] at heq
  exact heq

/-! ## Lemmas: lowercasing and the assembled evaluation text -/

theorem toNat_ofNat_valid {n : Nat} (h : n.isValidChar) : (Char.ofNat n).toNat = n := by
  unfold Char.ofNat
  rw [dif_pos h]
  rfl

theorem lowerC_nl_iff {c : Char} : lowerC c = '\n' ↔ c = '\n' := by
  constructor
  · intro h
    unfold lowerC at h
    by_cases h1 : 'A' ≤ c ∧ c ≤ 'Z'
    · rw [if_pos h1] at h
      exfalso
      obtain ⟨ha, hb⟩ := h1
      rw [Char.le_def] at ha hb
      have ha' : (65 : Nat) ≤ c.toNat := ha
      have hb' : c.toNat ≤ 90 := hb
      have hv : (c.toNat + 32).isValidChar := Or.inl (by omega)
      have hc := congrArg Char.toNat h
      rw [toNat_ofNat_valid hv] at hc
      have hnl : ('\n' : Char).toNat = 10 := by decide
      rw [hnl] at hc
      omega
    · rw [if_neg h1] at h
      by_cases h2 : 'À' ≤ c ∧ c ≤ 'Þ' ∧ c ≠ '×'
      · rw [if_pos h2] at h
        exfalso
        obtain ⟨ha, hb, -⟩ := h2
        rw [Char.le_def] at ha hb
        have ha' : (192 : Nat) ≤ c.toNat := ha
        have hb' : c.toNat ≤ 222 := hb
        have hv : (c.toNat + 32).isValidChar := Or.inl (by omega)
        have hc := congrArg Char.toNat h
        rw [toNat_ofNat_valid hv] at hc
        have hnl : ('\n' : Char).toNat = 10 := by decide
        rw [hnl] at hc
        omega
      · rw [if_neg h2] at h
        exact h
  · intro h
    rw [h]
    decide

theorem lowerS_append (x y : Str) : lowerS (x ++ y) = lowerS x ++ lowerS y :=
  List.map_append lowerC x y

theorem lowerS_length (s : Str) : (lowerS s).length = s.length :=
  List.length_map s lowerC

theorem splitLines_map_lower (s : Str) :
    splitLines (lowerS s) = (splitLines s).map lowerS := by
  induction s with
  | nil => rfl
  | cons c s' ih =>
    show splitLines (lowerC c :: lowerS s') = _
    by_cases hc : c = '\n'
    · subst hc
      have hl : lowerC '\n' = '\n' := by decide
      rw [hl]
      simp only [splitLines, if_pos rfl]
      rw [ih]
      rfl
    · have hl : lowerC c ≠ '\n' := fun hh => hc (lowerC_nl_iff.mp hh)
      simp only [splitLines, hl, hc, if_false]
      cases hsl : splitLines s' with
      | nil => exact absurd hsl (splitLines_ne_nil s')
      | cons h0 t0 =>
        rw [hsl] at ih
        rw [ih]
        rfl

theorem asm_cons_ne {B : Str → Str} {a : Str} {ys : List Str} (h : ys ≠ []) :
    asm B (a :: ys) = block a (B a) ++ '\n' :: asm B ys := by
  cases ys with
  | nil => exact absurd rfl h
  | cons y ys' => rfl

theorem asm_append (B : Str → Str) {x y : List Str} (hx : x ≠ []) (hy : y ≠ []) :
    asm B (x ++ y) = asm B x ++ '\n' :: asm B y := by
  induction x with
  | nil => exact absurd rfl hx
  | cons a x' ih =>
    cases x' with
    | nil =>
      rw [List.singleton_append, asm_cons_ne hy]
      rfl
    | cons b x'' =>
      have h1 : asm B (a :: (b :: x'' ++ y)) = block a (B a) ++ '\n' :: asm B (b :: x'' ++ y) :=
        asm_cons_ne (by simp)
      have h2 : asm B (a :: b :: x'') = block a (B a) ++ '\n' :: asm B (b :: x'') :=
        asm_cons_ne (by simp)
      rw [List.cons_append, h1, ih (by simp), h2]
      simp [List.append_assoc]

theorem splitLines_block {h b : Str} (hnl : '\n' ∉ h) :
    splitLines (block h b) = h :: splitLines b := by
  unfold block
  rw [splitLines_append_nl, splitLines_of_no_nl hnl]
  rfl

theorem splitLines_asm {B : Str → Str} :
    ∀ (hs : List Str), (∀ h ∈ hs, '\n' ∉ h) → hs ≠ [] →
      splitLines (asm B hs) = (hs.map (fun h => h :: splitLines (B h))).flatten := by
  intro hs
  induction hs with
  | nil => intro _ h; exact absurd rfl h
  | cons h hs' ih =>
    intro hnl _
    cases hs' with
    | nil =>
      show splitLines (block h (B h)) = _
      rw [splitLines_block (hnl h (List.mem_cons_self h []))]
      simp
    | cons h1 hs'' =>
      rw [asm_cons_ne (by simp), splitLines_append_nl,
        splitLines_block (hnl h (List.mem_cons_self h _)),
        ih (fun x hx => hnl x (List.mem_cons_of_mem h hx)) (by simp)]
      simp

theorem line_of_asm {B : Str → Str} {hs : List Str} {l : Str}
    (hnl : ∀ h ∈ hs, '\n' ∉ h) (hne : hs ≠ [])
    (hl : l ∈ splitLines (asm B hs)) :
    (∃ h ∈ hs, l = h) ∨ (∃ h ∈ hs, l ∈ splitLines (B h)) := by
  rw [splitLines_asm hs hnl hne] at hl
  rw [List.mem_flatten] at hl
  obtain ⟨grp, hgrp, hlg⟩ := hl
  rw [List.mem_map] at hgrp
  obtain ⟨h, hh, rfl⟩ := hgrp
  rcases List.mem_cons.mp hlg with rfl | hbody
  · exact Or.inl ⟨l, hh, rfl⟩
  · exact Or.inr ⟨h, hh, hbody⟩

theorem hasOccur_false_findAt {t p : Str} (h : hasOccur t p = false) :
    findAt p t = none := by
  unfold hasOccur at h
  cases hf : findAt p t with
  | none => rfl
  | some j => rw [hf] at h; simp at h

theorem no_occ_asm {B : Str → Str} {pat : Str} (hnl : '\n' ∉ pat)
    {w : List Str} (hw : w ≠ []) (hwnl : ∀ h ∈ w, '\n' ∉ h)
    (hhead : ∀ h ∈ w, findAt pat (lowerS h) = none)
    (hbody : ∀ h ∈ w, findAt pat (lowerS (B h)) = none) :
    findAt pat (lowerS (asm B w)) = none := by
  apply findAt_none_of_lines hnl
  intro l hl
  rw [splitLines_map_lower] at hl
  rw [List.mem_map] at hl
  obtain ⟨l0, hl0, rfl⟩ := hl
  rcases line_of_asm hwnl hw hl0 with ⟨h, hh, rfl⟩ | ⟨h, hh, hline⟩
  · exact hhead l0 hh
  · apply findAt_eq_none
    intro k hk
    have hmem : lowerS l0 ∈ splitLines (lowerS (B h)) := by
      rw [splitLines_map_lower]
      exact List.mem_map_of_mem lowerS hline
    obtain ⟨k', hk'⟩ := occursAt_of_line hmem hk
    exact findAt_none_no_occ (hbody h hh) k' hk'

theorem no_occ_cross_nl {A X pat : Str} {k : Nat} (hnl : '\n' ∉ pat) (hp : pat ≠ [])
    (hocc : occursAt (A ++ '\n' :: X) pat k) (hk : k ≤ A.length) :
    occursAt A pat k ∧ k + pat.length ≤ A.length := by
  by_cases hle : k + pat.length ≤ A.length
  · exact ⟨occursAt_of_append_region hocc hle, hle⟩
  · exfalso
    have hchar : (A ++ '\n' :: X)[A.length]? = some '\n' := by
      rw [List.getElem?_append_right (Nat.le_refl _)]
      simp
    have hlen : 0 < pat.length := List.length_pos.mpr hp
    exact hnl (nl_mem_of_occursAt_cover hocc hk (by omega) hchar)

theorem headings_nodup : headings.Nodup := by decide

theorem headings_no_nl : ∀ h ∈ headings, '\n' ∉ h := by decide

theorem headings_ne_nil : ∀ h ∈ headings, h ≠ [] := by decide

theorem headings_lower_inj : ∀ h1 ∈ headings, ∀ h2 ∈ headings,
    lowerS h1 = lowerS h2 → h1 = h2 := by decide

theorem headings_no_cross : ∀ h1 ∈ headings, ∀ h2 ∈ headings, h1 ≠ h2 →
    findAt (lowerS h1) (lowerS h2) = none := by decide

theorem headings_lower_no_nl : ∀ h ∈ headings, '\n' ∉ lowerS h := by decide

theorem occursAt_front0 (p Y : Str) : occursAt (p ++ Y) p 0 := by
  rw [occursAt_zero]
  exact List.take_left p Y

theorem occursAt_cons_nl {X p : Str} {k : Nat} (hp : p ≠ []) (hnl : '\n' ∉ p)
    (h : occursAt ('\n' :: X) p k) : ∃ j, k = j + 1 ∧ occursAt X p j := by
  cases k with
  | zero =>
    exfalso
    rw [occursAt_zero] at h
    cases p with
    | nil => exact hp rfl
    | cons q qs =>
      simp only [List.length_cons, List.take_succ_cons, List.cons.injEq] at h
      exact hnl (h.1 ▸ List.mem_cons_self _ _)
  | succ j => exact ⟨j, rfl, occursAt_cons_succ.mp h⟩

theorem nextIdxFold_nil {low hlow : Str} {after init : Nat} :
    nextIdxFold low hlow after [] init = init := rfl

theorem nextIdxFold_cons {low hlow a : Str} {hs : List Str} {after init : Nat} :
    nextIdxFold low hlow after (a :: hs) init =
      nextIdxFold low hlow after hs
        (if lowerS a = hlow then init
         else match pyFind low (lowerS a) after with
              | some j => if j < init then j else init
              | none => init) := rfl

theorem nextIdxFold_le_init {low hlow : Str} {after : Nat} :
    ∀ (hs : List Str) (init : Nat), nextIdxFold low hlow after hs init ≤ init := by
  intro hs
  induction hs with
  | nil => intro init; rw [nextIdxFold_nil]
  | cons a hs' ih =>
    intro init
    rw [nextIdxFold_cons]
    by_cases hg : lowerS a = hlow
    · rw [if_pos hg]; exact ih init
    · rw [if_neg hg]
      cases hpf : pyFind low (lowerS a) after with
      | none => exact ih init
      | some j =>
        show nextIdxFold low hlow after hs' (if j < init then j else init) ≤ init
        by_cases hj : j < init
        · rw [if_pos hj]
          exact Nat.le_trans (ih j) (Nat.le_of_lt hj)
        · rw [if_neg hj]; exact ih init

theorem nextIdxFold_ge {low hlow : Str} {after c : Nat} :
    ∀ (hs : List Str) (init : Nat), c ≤ init →
      (∀ h ∈ hs, lowerS h ≠ hlow → ∀ j, pyFind low (lowerS h) after = some j → c ≤ j) →
      c ≤ nextIdxFold low hlow after hs init := by
  intro hs
  induction hs with
  | nil => intro init hi _; rw [nextIdxFold_nil]; exact hi
  | cons a hs' ih =>
    intro init hi hall
    rw [nextIdxFold_cons]
    have htail : ∀ h ∈ hs', lowerS h ≠ hlow →
        ∀ j, pyFind low (lowerS h) after = some j → c ≤ j :=
      fun h hh => hall h (List.mem_cons_of_mem a hh)
    by_cases hg : lowerS a = hlow
    · rw [if_pos hg]; exact ih init hi htail
    · rw [if_neg hg]
      cases hpf : pyFind low (lowerS a) after with
      | none => exact ih init hi htail
      | some j =>
        have hcj : c ≤ j := hall a (List.mem_cons_self a hs') hg j hpf
        show c ≤ nextIdxFold low hlow after hs' (if j < init then j else init)
        by_cases hj : j < init
        · rw [if_pos hj]; exact ih j hcj htail
        · rw [if_neg hj]; exact ih init hi htail

theorem nextIdxFold_le_mem {low hlow h : Str} {after j : Nat}
    (hne : lowerS h ≠ hlow) (hpf : pyFind low (lowerS h) after = some j) :
    ∀ (hs : List Str) (init : Nat), h ∈ hs →
      nextIdxFold low hlow after hs init ≤ j := by
  intro hs
  induction hs with
  | nil => intro init hm; exact absurd hm (List.not_mem_nil h)
  | cons a hs' ih =>
    intro init hm
    rw [nextIdxFold_cons]
    rcases List.mem_cons.mp hm with rfl | hm'
    · rw [if_neg hne, hpf]
      show nextIdxFold low hlow after hs' (if j < init then j else init) ≤ j
      by_cases hj : j < init
      · rw [if_pos hj]; exact nextIdxFold_le_init hs' j
      · rw [if_neg hj]
        exact Nat.le_trans (nextIdxFold_le_init hs' init) (Nat.le_of_not_lt hj)
    · exact ih _ hm'

theorem asm_decomp (B : Str → Str) (u v : List Str) (h : Str) :
    asm B (u ++ h :: v) =
      (if u = [] then [] else asm B u ++ ['\n']) ++
      (h ++ '\n' :: (B h ++ (if v = [] then [] else '\n' :: asm B v))) := by
  have hmid : asm B (h :: v) =
      h ++ '\n' :: (B h ++ (if v = [] then [] else '\n' :: asm B v)) := by
    cases v with
    | nil => simp [asm, block]
    | cons v0 v' =>
      rw [asm_cons_ne (by simp)]
      simp [block, List.append_assoc]
  cases u with
  | nil => simpa using hmid
  | cons u0 u' =>
    rw [show (u0 :: u') ++ h :: v = (u0 :: u') ++ (h :: v) from rfl,
      asm_append B (by simp) (by simp), hmid]
    simp [List.append_assoc]

theorem asm_ne_nil {B : Str → Str} :
    ∀ {hs : List Str}, hs ≠ [] → (∀ h ∈ hs, h ≠ []) → asm B hs ≠ [] := by
  intro hs hne hnn
  cases hs with
  | nil => exact absurd rfl hne
  | cons a hs' =>
    cases hs' with
    | nil =>
      show block a (B a) ≠ []
      unfold block
      intro hc
      rcases List.append_eq_nil.mp hc with ⟨h1, _⟩
      exact hnn a (List.mem_cons_self a []) h1
    | cons b hs'' =>
      rw [asm_cons_ne (by simp)]
      intro hc
      rcases List.append_eq_nil.mp hc with ⟨h1, _⟩
      unfold block at h1
      rcases List.append_eq_nil.mp h1 with ⟨h2, _⟩
      exact hnn a (List.mem_cons_self a _) h2

theorem lowerS_cons (c : Char) (t : Str) : lowerS (c :: t) = lowerC c :: lowerS t := rfl

theorem lowerC_nl : lowerC '\n' = '\n' := by decide

theorem lowerS_ne_nil {s : Str} (h : s ≠ []) : lowerS s ≠ [] := by
  intro hc
  exact h (List.map_eq_nil_iff.mp hc)

theorem findAt_front {Apre pat Z : Str} (hp : pat ≠ []) (hnl : '\n' ∉ pat)
    (hA : Apre = [] ∨ ∃ W, Apre = W ++ ['\n'] ∧ findAt pat W = none) :
    findAt pat (Apre ++ (pat ++ Z)) = some Apre.length := by
  apply findAt_eq_some
  · have := occursAt_append_left (u := Apre) (occursAt_front0 pat Z)
    simpa using this
  · intro k hk hoc
    rcases hA with rfl | ⟨W, rfl, hW⟩
    · exact absurd hk (by simp)
    · have hk' : k ≤ W.length := by simp at hk; omega
      have hoc' : occursAt (W ++ '\n' :: (pat ++ Z)) pat k := by
        rw [List.append_assoc, List.singleton_append] at hoc
        exact hoc
      exact findAt_none_no_occ hW k (no_occ_cross_nl hnl hp hoc' hk').1

theorem occ_after_body {C Z pat : Str} {k : Nat} (hp : pat ≠ []) (hnl : '\n' ∉ pat)
    (hC : findAt pat C = none)
    (h : occursAt ('\n' :: (C ++ '\n' :: Z)) pat k) : C.length + 2 ≤ k := by
  obtain ⟨j, rfl, hj⟩ := occursAt_cons_nl hp hnl h
  by_cases hle : j ≤ C.length
  · exact absurd (no_occ_cross_nl hnl hp hj hle).1 (findAt_none_no_occ hC j)
  · omega

theorem occ_after_body_none {C pat : Str} {k : Nat} (hp : pat ≠ []) (hnl : '\n' ∉ pat)
    (hC : findAt pat C = none) (h : occursAt ('\n' :: C) pat k) : False := by
  obtain ⟨j, _, hj⟩ := occursAt_cons_nl hp hnl h
  exact findAt_none_no_occ hC j hj

theorem lowerS_nil : lowerS [] = [] := rfl

theorem extract_core {Bh A R h : Str} {sc : Nat} {ex : Str} (hh : h ∈ headings)
    (hfront : lowerS A = [] ∨ ∃ W, lowerS A = W ++ ['\n'] ∧ findAt (lowerS h) W = none)
    (habs : ∀ x ∈ headings, findAt (lowerS x) (lowerS Bh) = none)
    (hRcase : R = [] ∨ ∃ v0 rest, v0 ∈ headings ∧ v0 ≠ h ∧ R = '\n' :: (v0 ++ rest))
    (hscan : sectionScan (procLines Bh) = some (sc, ex)) :
    extract (A ++ (h ++ '\n' :: (Bh ++ R))) h = some (some (sc, ex)) := by
  set P : Str := A ++ (h ++ '\n' :: (Bh ++ R)) with hPdef
  have hhne : h ≠ [] := headings_ne_nil h hh
  have hlne : lowerS h ≠ [] := lowerS_ne_nil hhne
  have hlnl : '\n' ∉ lowerS h := headings_lower_no_nl h hh
  have hPl : lowerS P = lowerS A ++ (lowerS h ++ '\n' :: (lowerS Bh ++ lowerS R)) := by
    rw [hPdef, lowerS_append, lowerS_append, lowerS_cons, lowerC_nl, lowerS_append]
  have hfind : findHeading P h = some A.length := by
    unfold findHeading
    rw [hPl]
    exact (findAt_front hlne hlnl hfront).trans (by rw [lowerS_length])
  have hdropPl : (lowerS P).drop (A.length + h.length) =
      '\n' :: (lowerS Bh ++ lowerS R) := by
    rw [hPl, ← List.append_assoc,
      show A.length + h.length = (lowerS A ++ lowerS h).length by simp [lowerS_length]]
    exact List.drop_left _ _
  have hdropP : P.drop (A.length + h.length) = '\n' :: (Bh ++ R) := by
    rw [hPdef, ← List.append_assoc,
      show A.length + h.length = (A ++ h).length by simp]
    exact List.drop_left _ _
  have hsec : sectionOf P h A.length = strip Bh := by
    rcases hRcase with hRnil | ⟨v0, rest, hv0mem, hv0neq, hRv⟩
    · have hend : sectionEnd P (lowerS h) (A.length + h.length) = P.length := by
        unfold sectionEnd
        apply Nat.le_antisymm
        · exact nextIdxFold_le_init headings P.length
        · apply nextIdxFold_ge headings P.length (Nat.le_refl _)
          intro x hx hxne j hj
          exfalso
          have hnone : pyFind (lowerS P) (lowerS x) (A.length + h.length) = none := by
            apply pyFind_eq_none
            intro k hk hoc
            have h2 : occursAt ((lowerS P).drop (A.length + h.length)) (lowerS x)
                (k - (A.length + h.length)) := by
              rw [occursAt_of_drop, Nat.add_sub_cancel' hk]
              exact hoc
            rw [hdropPl, hRnil, lowerS_nil, List.append_nil] at h2
            exact occ_after_body_none (lowerS_ne_nil (headings_ne_nil x hx))
              (headings_lower_no_nl x hx) (habs x hx) h2
          rw [hnone] at hj
          exact Option.noConfusion hj
      have hPlen := congrArg List.length hPdef
      simp only [List.length_append, List.length_cons] at hPlen
      have hRlen : R.length = 0 := by rw [hRnil]; rfl
      unfold sectionOf
      rw [hend, hdropP, hRnil, List.append_nil,
        List.take_of_length_le (by simp only [List.length_cons]; omega)]
      exact strip_cons_ws (by decide) Bh
    · have hRl : lowerS R = '\n' :: (lowerS v0 ++ lowerS rest) := by
        rw [hRv, lowerS_cons, lowerC_nl, lowerS_append]
      have hv0lne : lowerS v0 ≠ lowerS h := by
        intro hc
        exact hv0neq (headings_lower_inj v0 hv0mem h hh hc)
      have hdropPl2 : (lowerS P).drop (A.length + h.length) =
          '\n' :: (lowerS Bh ++ ('\n' :: (lowerS v0 ++ lowerS rest))) := by
        rw [hdropPl, hRl]
      have hocc_ge : ∀ pat, pat ≠ [] → '\n' ∉ pat → findAt pat (lowerS Bh) = none →
          ∀ k, A.length + h.length ≤ k → occursAt (lowerS P) pat k →
            A.length + h.length + (Bh.length + 2) ≤ k := by
        intro pat hp hnl2 habs2 k hk hoc
        have h2 : occursAt ((lowerS P).drop (A.length + h.length)) pat
            (k - (A.length + h.length)) := by
          rw [occursAt_of_drop, Nat.add_sub_cancel' hk]
          exact hoc
        rw [hdropPl2] at h2
        have h3 := occ_after_body hp hnl2 habs2 h2
        have h4 : (lowerS Bh).length = Bh.length := lowerS_length _
        omega
      have hdrop2 : (lowerS P).drop (A.length + h.length + (Bh.length + 2)) =
          lowerS v0 ++ lowerS rest := by
        rw [← List.drop_drop, hdropPl2,
          show Bh.length + 2 = (Bh.length + 1) + 1 from rfl,
          List.drop_succ_cons,
          show lowerS Bh ++ '\n' :: (lowerS v0 ++ lowerS rest) =
            (lowerS Bh ++ ['\n']) ++ (lowerS v0 ++ lowerS rest) by simp,
          show Bh.length + 1 = (lowerS Bh ++ ['\n']).length by simp [lowerS_length]]
        exact List.drop_left _ _
      have hocc_d : occursAt (lowerS P) (lowerS v0)
          (A.length + h.length + (Bh.length + 2)) := by
        have h0 : occursAt ((lowerS P).drop (A.length + h.length + (Bh.length + 2)))
            (lowerS v0) 0 := by
          rw [hdrop2]
          exact occursAt_front0 _ _
        rw [occursAt_of_drop] at h0
        simpa using h0
      have hpf0 : pyFind (lowerS P) (lowerS v0) (A.length + h.length) =
          some (A.length + h.length + (Bh.length + 2)) := by
        apply pyFind_eq_some (by omega) hocc_d
        intro k hk1 hk2 hoc
        have := hocc_ge (lowerS v0) (lowerS_ne_nil (headings_ne_nil v0 hv0mem))
          (headings_lower_no_nl v0 hv0mem) (habs v0 hv0mem) k hk1 hoc
        omega
      have hend : sectionEnd P (lowerS h) (A.length + h.length) =
          A.length + h.length + (Bh.length + 2) := by
        unfold sectionEnd
        apply Nat.le_antisymm
        · exact nextIdxFold_le_mem hv0lne hpf0 headings P.length hv0mem
        · apply nextIdxFold_ge headings P.length
          · have hb := occursAt_bound (lowerS_ne_nil (headings_ne_nil v0 hv0mem)) hocc_d
            have h4 : (lowerS P).length = P.length := lowerS_length _
            omega
          · intro x hx hxne j hj
            obtain ⟨hj1, hj2⟩ := pyFind_some_occurs hj
            exact hocc_ge (lowerS x) (lowerS_ne_nil (headings_ne_nil x hx))
              (headings_lower_no_nl x hx) (habs x hx) j hj1 hj2
      unfold sectionOf
      rw [hend, hdropP, hRv,
        show A.length + h.length + (Bh.length + 2) - (A.length + h.length) =
          (Bh.length + 1) + 1 from by omega,
        List.take_succ_cons,
        show Bh ++ '\n' :: (v0 ++ rest) = (Bh ++ ['\n']) ++ (v0 ++ rest) by simp,
        show Bh.length + 1 = (Bh ++ ['\n']).length by simp,
        List.take_left]
      rw [strip_cons_ws (by decide), strip_append_ws (by decide)]
  have hne2 : strip Bh ≠ [] := by
    intro hc
    have hple : procLines Bh = [] := by
      rw [← procLines_strip, hc]
      rfl
    rw [hple] at hscan
    exact Option.noConfusion hscan
  unfold extract
  rw [hfind]
  show (if sectionOf P h A.length = [] then some none
        else some (sectionScan (procLines (sectionOf P h A.length)))) = some (some (sc, ex))
  rw [hsec, if_neg hne2, procLines_strip, hscan]

theorem extract_asm_parts (B : Str → Str) (u v : List Str) (h : Str)
    (husub : ∀ x ∈ u, x ∈ headings) (hvsub : ∀ x ∈ v, x ∈ headings)
    (hh : h ∈ headings) (hnu : h ∉ u) (hnv : h ∉ v)
    (hnb : ∀ x ∈ headings, ∀ y ∈ headings, findAt (lowerS y) (lowerS (B x)) = none)
    {sc : Nat} {ex : Str} (hscan : sectionScan (procLines (B h)) = some (sc, ex)) :
    extract (asm B (u ++ h :: v)) h = some (some (sc, ex)) := by
  have hfront : lowerS (if u = [] then ([] : Str) else asm B u ++ ['\n']) = [] ∨
      ∃ W, lowerS (if u = [] then ([] : Str) else asm B u ++ ['\n']) = W ++ ['\n'] ∧
        findAt (lowerS h) W = none := by
    by_cases hu : u = []
    · left
      rw [if_pos hu]
      rfl
    · right
      refine ⟨lowerS (asm B u), ?_, ?_⟩
      · rw [if_neg hu, lowerS_append]
        rfl
      · exact no_occ_asm (headings_lower_no_nl h hh) hu
          (fun x hx => headings_no_nl x (husub x hx))
          (fun x hx => headings_no_cross h hh x (husub x hx) (fun hc => hnu (hc ▸ hx)))
          (fun x hx => hnb x (husub x hx) h hh)
  have hRcase : (if v = [] then ([] : Str) else '\n' :: asm B v) = [] ∨
      ∃ v0 rest, v0 ∈ headings ∧ v0 ≠ h ∧
        (if v = [] then ([] : Str) else '\n' :: asm B v) = '\n' :: (v0 ++ rest) := by
    cases v with
    | nil =>
      left
      simp
    | cons v0 v' =>
      right
      have h1 : asm B (v0 :: v') =
          v0 ++ '\n' :: (B v0 ++ (if v' = [] then [] else '\n' :: asm B v')) := by
        have h2 := asm_decomp B [] v' v0
        simpa using h2
      refine ⟨v0, '\n' :: (B v0 ++ (if v' = [] then [] else '\n' :: asm B v')),
        hvsub v0 (List.mem_cons_self _ _), ?_, ?_⟩
      · intro hc
        exact hnv (hc ▸ List.mem_cons_self v0 v')
      · rw [if_neg (by simp), h1]
  rw [asm_decomp]
  exact extract_core hh hfront (fun x hx => hnb h hh x hx) hRcase hscan

theorem tpLoop_all_scored {N : Str} (S : Str → Nat) (E : Str → Str) :
    ∀ (hs : List Str) (res : List (Str × Nat × Str)),
      (∀ h ∈ hs, extract N h = some (some (S h, E h))) →
      tpLoop N hs res [] = (true, some (res ++ hs.map (fun h => (h, S h, E h))), none) := by
  intro hs
  induction hs with
  | nil =>
    intro res _
    rw [tpLoop_nil_ok]
    simp
  | cons h hs' ih =>
    intro res hall
    rw [tpLoop_cons_scored (hall h (List.mem_cons_self _ _)),
      ih (res ++ [(h, S h, E h)]) (fun x hx => hall x (List.mem_cons_of_mem h hx))]
    simp

/-- C7: order independence. For a text assembled as the configured heading
sections in an arbitrary permutation `perm` of the configured order, where
the text is in normalized form, no heading label occurs (case-insensitively)
inside any section body, and every body yields a score and explanation under
the section scan, `try_parse` succeeds and returns the same per-heading
`(score, explanation)` mapping (in configuration order) regardless of the
permutation. -/
theorem C7_order_independence (B : Str → Str) (S : Str → Nat) (E : Str → Str)
    (perm : List Str) (hperm : perm.Perm headings)
    (hnorm : normalize_text (some (asm B perm)) = asm B perm)
    (hnb : ∀ h ∈ headings, ∀ h' ∈ headings, hasOccur (lowerS (B h)) (lowerS h') = false)
    (hscan : ∀ h ∈ headings, sectionScan (procLines (B h)) = some (S h, E h)) :
    try_parse (some (asm B perm)) =
      (true, some (headings.map (fun h => (h, S h, E h))), none) := by
  have hnb' : ∀ x ∈ headings, ∀ y ∈ headings, findAt (lowerS y) (lowerS (B x)) = none :=
    fun x hx y hy => hasOccur_false_findAt (hnb x hx y hy)
  have hsubperm : ∀ x ∈ perm, x ∈ headings := fun x hx => hperm.mem_iff.mp hx
  have hnodup : perm.Nodup := hperm.nodup_iff.mpr headings_nodup
  have hpermne : perm ≠ [] := by
    intro hc
    rw [hc] at hperm
    exact absurd hperm.symm.eq_nil (by decide)
  have hPne : asm B perm ≠ [] :=
    asm_ne_nil hpermne (fun x hx => headings_ne_nil x (hsubperm x hx))
  have hfix : strip (asm B perm) = asm B perm := by
    conv_lhs => rw [← hnorm]
    rw [normalize_strip_fixed]
    exact hnorm
  have hstrip : strip (asm B perm) ≠ [] := by
    rw [hfix]
    exact hPne
  rw [try_parse_some_ne hstrip, hnorm]
  have hext : ∀ h ∈ headings, extract (asm B perm) h = some (some (S h, E h)) := by
    intro h hh
    have hmem : h ∈ perm := hperm.mem_iff.mpr hh
    obtain ⟨u, v, hsplit⟩ := List.append_of_mem hmem
    have hnd2 : (u ++ h :: v).Nodup := hsplit ▸ hnodup
    rw [List.nodup_append] at hnd2
    obtain ⟨hndu, hndhv, hdisj⟩ := hnd2
    have hnv : h ∉ v := (List.nodup_cons.mp hndhv).1
    have hnu : h ∉ u := fun hc => hdisj hc (List.mem_cons_self _ _)
    have hsub2 : ∀ x ∈ u ++ h :: v, x ∈ headings := by
      rw [← hsplit]
      exact hsubperm
    rw [hsplit]
    exact extract_asm_parts B u v h
      (fun x hx => hsub2 x (List.mem_append_left _ hx))
      (fun x hx => hsub2 x (List.mem_append_right _ (List.mem_cons_of_mem h hx)))
      hh hnu hnv hnb' (hscan h hh)
  have hloop := tpLoop_all_scored S E headings [] hext
  simpa using hloop

/-- C7 witness: the four sections in reverse configuration order, each with
body score `2` and explanation `ok`, parse successfully into the
configuration-ordered mapping. -/
theorem C7_witness :
    try_parse (some (asm (fun _ => "2\nok".toList)
        ["Azione".toList, "Impatto emotivo".toList, "Originalità".toList,
         "Coerenza narrativa".toList])) =
      (true, some (headings.map (fun h => (h, 2, "ok".toList))), none) :=
  C7_order_independence (fun _ => "2\nok".toList) (fun _ => 2) (fun _ => "ok".toList)
    ["Azione".toList, "Impatto emotivo".toList, "Originalità".toList,
     "Coerenza narrativa".toList]
    (by decide) (by rfl) (by decide) (by decide)
